import Mathlib

/-!
Shallow embedding of the numerical core of the `gofr-np` repository and
verification of its specification claims.

The embedding covers:
* the curve-fitting subsystem of `app/math_engine/capabilities/curvefit.py`
  (outlier filter, metric calculator, candidate assembly, minimum-AIC model
  selection);
* the financial subsystem of `app/math_engine/capabilities/financial.py`
  (binomial-tree option pricer with escrowed discrete dividends, bond pricer,
  technical indicators).

Python floats are modelled as real numbers; the float value `-inf` used for a
perfect-fit AIC is modelled with `WithBot ℝ`; numpy `nan` padding entries of
indicator outputs are modelled with `Option ℝ`; exceptions are modelled with
`Except String`.
-/

namespace GofrNp

/-- Result of a single model fit, mirroring the `FitResult` dataclass of
`curvefit.py` (lines 28-37).  The `aic` field is kept at an arbitrary ordered
type `α`; instantiating `α := WithBot ℝ` models an IEEE float AIC together
with `-inf` (`⊥`).  The `predict_fn` closure is not needed by any claim and is
omitted. -/
structure FitResult (α : Type) where
  model_type : String
  params : List ℝ
  r_squared : ℝ
  rmse : ℝ
  equation : String
  aic : α

/-- Python `min(valid_candidates, key=lambda c: c.aic)` from `handle_fit`
(curvefit.py line 235): left fold that keeps the earliest candidate whose
`aic` is minimal (Python's `min` replaces the current best only on a strictly
smaller key, so ties favour the earlier element).  Returns `none` on the empty
list; the caller rejects that case before calling `min`.  `pickMin` is one
comparison step: the current best is replaced only on a strictly smaller
key. -/
def pickMin {α : Type} [LinearOrder α] (best cand : FitResult α) : FitResult α :=
  if cand.aic < best.aic then cand else best

/-- Selection itself: reduce the candidate list with `pickMin` starting from
its first element (empty list = `none`). -/
def selectBest {α : Type} [LinearOrder α] : List (FitResult α) → Option (FitResult α)
  | [] => none
  | c :: rest => some (rest.foldl pickMin c)

/-- Candidate filtering and selection portion of `handle_fit` (curvefit.py
lines 227-236): infeasible fits (`None`) are dropped, a total absence of
feasible candidates is rejected with an input error, and otherwise the
minimum-AIC candidate is selected. -/
def handle_fit_select {α : Type} [LinearOrder α]
    (candidates : List (Option (FitResult α))) : Except String (FitResult α) :=
  match selectBest (candidates.filterMap id) with
  | none => .error ("Could not fit any model to the data")
  | some c => .ok c

/-- Polynomial degrees tried by `handle_fit` (curvefit.py lines 208-212): when
an explicit `degree` is given only that degree is tried, otherwise degrees
`1 .. min 10 (n - 2)` ascending, where `n` is the number of cleaned points. -/
def polyDegrees (degree : Option ℕ) (n : ℕ) : List ℕ :=
  let max_deg := degree.getD (min 10 (n - 2))
  let min_deg := degree.getD 1
  List.range' min_deg (max_deg + 1 - min_deg)

/-- Candidate list assembled by `handle_fit` (curvefit.py lines 205-225), in
the fixed fitter order: polynomial degrees ascending, then exponential,
logarithmic, power, sigmoid.  The five fitters are abstracted as oracle
arguments (`none` = infeasible fit): their internal numerics (numpy least
squares, TensorFlow gradient descent) are outside the selection logic that
the claims address. -/
def buildCandidates {α : Type} (model_type : String) (degree : Option ℕ) (n : ℕ)
    (fitPoly : ℕ → Option (FitResult α))
    (fitExp fitLog fitPow fitSig : Option (FitResult α)) :
    List (Option (FitResult α)) :=
  (if model_type = "auto" ∨ model_type = "polynomial"
    then (polyDegrees degree n).map fitPoly else []) ++
  (if model_type = "auto" ∨ model_type = "exponential" then [fitExp] else []) ++
  (if model_type = "auto" ∨ model_type = "logarithmic" then [fitLog] else []) ++
  (if model_type = "auto" ∨ model_type = "power" then [fitPow] else []) ++
  (if model_type = "auto" ∨ model_type = "sigmoid" then [fitSig] else [])

/-- Sum of squared errors `sse = np.sum((y_true - y_pred)**2)` from
`_calculate_metrics` (curvefit.py lines 291-292). -/
noncomputable def sseOf (y_true y_pred : List ℝ) : ℝ :=
  ((List.zipWith (fun a b => a - b) y_true y_pred).map (fun rv => rv ^ 2)).sum

/-- Arithmetic mean `np.mean` of a list of reals. -/
noncomputable def meanOf (l : List ℝ) : ℝ := l.sum / l.length

/-- Total sum of squares `sst = np.sum((y_true - np.mean(y_true))**2)` from
`_calculate_metrics` (curvefit.py line 298). -/
noncomputable def sstOf (y_true : List ℝ) : ℝ :=
  (y_true.map (fun yv => (yv - meanOf y_true) ^ 2)).sum

/-- Metric calculator `_calculate_metrics` (curvefit.py lines 288-311):
returns `(R², RMSE, AIC)` with the degenerate-case policies: `R² = 0` when
`SST < 1e-10`, and `AIC = ⊥` (the float `-inf`) when `SSE < 1e-10`. -/
noncomputable def _calculate_metrics (y_true y_pred : List ℝ) (n_params : ℕ) :
    ℝ × ℝ × WithBot ℝ :=
  let n : ℝ := y_true.length
  let sse := sseOf y_true y_pred
  let rmse := Real.sqrt (sse / n)
  let sst := sstOf y_true
  let r_sq : ℝ := if sst < 1e-10 then 0 else 1 - sse / sst
  let aic : WithBot ℝ :=
    if sse < 1e-10 then ⊥ else ((n * Real.log (sse / n) + 2 * n_params : ℝ) : WithBot ℝ)
  (r_sq, rmse, aic)

/-- Least-squares straight line through the data points, returned as
`(slope, intercept)`: the closed form of `np.polyfit(x, y, 1)` (curvefit.py
line 184) for a design matrix of full rank. -/
noncomputable def olsLine (x y : List ℝ) : ℝ × ℝ :=
  let n : ℝ := x.length
  let sx := x.sum
  let sy := y.sum
  let sxx := (x.map (fun v => v ^ 2)).sum
  let sxy := (List.zipWith (fun a b => a * b) x y).sum
  let slope := (n * sxy - sx * sy) / (n * sxx - sx ^ 2)
  (slope, (sy - slope * sx) / n)

/-- Median of a list of reals (`np.median`): the middle element of the sorted
list for odd length, the mean of the two middle elements for even length. -/
noncomputable def median (l : List ℝ) : ℝ :=
  let s := l.mergeSort (fun a b => decide (a ≤ b))
  if l.length % 2 = 1 then s.getD (l.length / 2) 0
  else (s.getD (l.length / 2 - 1) 0 + s.getD (l.length / 2) 0) / 2

/-- Absolute residuals `np.abs(y - np.polyval(p_init, x))` of the quick linear
pre-fit (curvefit.py lines 185-186). -/
noncomputable def residualsOf (x y : List ℝ) : List ℝ :=
  List.zipWith (fun xi yi => |yi - ((olsLine x y).1 * xi + (olsLine x y).2)|) x y

/-- MAD statistic of the outlier filter (curvefit.py line 187): the median of
the absolute residuals. -/
noncomputable def madOf (x y : List ℝ) : ℝ := median (residualsOf x y)

/-- Keep the entries of `l` whose entry in `mask` is `true` (numpy
boolean-mask indexing `x[clean_mask]`). -/
def maskSelect {α : Type} (l : List α) (mask : List Bool) : List α :=
  ((l.zip mask).filter (fun pm => pm.2)).map (fun pm => pm.1)

/-- Boolean keep-mask of the outlier filter (curvefit.py lines 189-191):
`modified_z_score = 0.6745 * residuals / mad; clean_mask = modified_z_score < 3.5`. -/
noncomputable def cleanMask (x y : List ℝ) : List Bool :=
  (residualsOf x y).map (fun rv => decide (0.6745 * rv / madOf x y < 3.5))

/-- Outlier-filter step of `handle_fit` (curvefit.py lines 182-200): when
`MAD > 1e-9`, points with modified Z-score `0.6745 * |residual| / MAD` at or
above `3.5` are dropped, unless fewer than 3 points would remain; otherwise
the arrays pass through unchanged. -/
noncomputable def outlierFilter (x y : List ℝ) : List ℝ × List ℝ :=
  if 1e-9 < madOf x y then
    if 3 ≤ (cleanMask x y).count true
      then (maskSelect x (cleanMask x y), maskSelect y (cleanMask x y))
      else (x, y)
  else (x, y)

/-! Financial subsystem (`app/math_engine/capabilities/financial.py`). -/

/-- Option kind (`option_type`: "call" or "put"). -/
inductive OptType where
  | call
  | put
deriving DecidableEq

/-- Exercise style (`exercise_style`: "european" or "american"). -/
inductive ExStyle where
  | european
  | american
deriving DecidableEq

/-- Discrete dividend `{amount, time}` entry. -/
structure Dividend where
  amount : ℝ
  time : ℝ

/-- Intrinsic payoff: `np.maximum(0, asset - K)` for a call,
`np.maximum(0, K - asset)` for a put. -/
noncomputable def payoff (ot : OptType) (K s : ℝ) : ℝ :=
  match ot with
  | .call => max 0 (s - K)
  | .put => max 0 (K - s)

/-- Dividend filter of `_calculate_binomial_price` (financial.py line 454):
`valid_divs = [d for d in dividends if 0 < d["time"] <= T]`. -/
noncomputable def validDivs (T : ℝ) (divs : List Dividend) : List Dividend :=
  divs.filter (fun dv => decide (0 < dv.time ∧ dv.time ≤ T))

/-- Present value of the valid discrete dividends (financial.py line 455):
`pv_divs = sum(d["amount"] * np.exp(-r * d["time"]) for d in valid_divs)`. -/
noncomputable def pvDivsOf (r T : ℝ) (divs : List Dividend) : ℝ :=
  ((validDivs T divs).map (fun dv => dv.amount * Real.exp (-r * dv.time))).sum

/-- Present value, at tree time `t`, of the valid dividends falling strictly
after `t` (financial.py lines 488-491 and 524, 531). -/
noncomputable def pvRemainingOf (r : ℝ) (vd : List Dividend) (t : ℝ) : ℝ :=
  ((vd.filter (fun dv => decide (t < dv.time))).map
    (fun dv => dv.amount * Real.exp (-r * (dv.time - t)))).sum

/-- Tree time step `dt = T / N`. -/
noncomputable def treeDt (T : ℝ) (N : ℕ) : ℝ := T / N

/-- CRR up factor `u = exp(sigma * sqrt(dt))`. -/
noncomputable def treeU (sigma T : ℝ) (N : ℕ) : ℝ :=
  Real.exp (sigma * Real.sqrt (treeDt T N))

/-- CRR down factor `d = 1 / u`. -/
noncomputable def treeD (sigma T : ℝ) (N : ℕ) : ℝ := 1 / treeU sigma T N

/-- Risk-neutral probability `p = (exp((r - q) dt) - d) / (u - d)`. -/
noncomputable def treeP (r q sigma T : ℝ) (N : ℕ) : ℝ :=
  (Real.exp ((r - q) * treeDt T N) - treeD sigma T N) /
    (treeU sigma T N - treeD sigma T N)

/-- Per-step discount factor `exp(-r dt)`. -/
noncomputable def treeDisc (r T : ℝ) (N : ℕ) : ℝ := Real.exp (-r * treeDt T N)

/-- Asset prices of tree layer `j` rooted at the escrowed spot:
node `i` (for `i = 0 .. j`) carries `S_tree * u^(j-i) * d^i`
(financial.py lines 469-470 and 496-497). -/
noncomputable def layerPrices (S_tree u d : ℝ) (j : ℕ) : List ℝ :=
  (List.range (j + 1)).map (fun i => S_tree * u ^ (j - i) * d ^ i)

/-- Discounted continuation values (financial.py line 493):
`discount * (p * option_values[:-1] + (1 - p) * option_values[1:])`. -/
noncomputable def contStep (disc p : ℝ) (vals : List ℝ) : List ℝ :=
  List.zipWith (fun a b => disc * (p * a + (1 - p) * b)) vals vals.tail

/-- Bundled tree quantities of one `_calculate_binomial_price` invocation. -/
structure TreeCtx where
  S_tree : ℝ
  K : ℝ
  r : ℝ
  u : ℝ
  d : ℝ
  p : ℝ
  disc : ℝ
  dt : ℝ
  vd : List Dividend
  ot : OptType
  st : ExStyle

/-- One backward-induction iteration of the loop in
`_calculate_binomial_price` (financial.py lines 486-506), producing the
layer-`j` value vector from the layer-`j+1` one.  For American style the
node asset prices are reconstructed by adding back the present value of the
remaining dividends and the elementwise maximum with the intrinsic payoff is
taken; for European style the continuation values are used unmodified. -/
noncomputable def backstep (cx : TreeCtx) (j : ℕ) (vals : List ℝ) : List ℝ :=
  let continuation := contStep cx.disc cx.p vals
  match cx.st with
  | .european => continuation
  | .american =>
      let pv_remaining := pvRemainingOf cx.r cx.vd (j * cx.dt)
      let intrinsic := (layerPrices cx.S_tree cx.u cx.d j).map
        (fun sv => payoff cx.ot cx.K (sv + pv_remaining))
      List.zipWith max continuation intrinsic

/-- Value vectors of the backward induction: `valsFrom cx N k` is the option
value vector at layer `N - k`, i.e. the terminal payoff layer (`k = 0`)
followed by `k` iterations of `backstep`. -/
noncomputable def valsFrom (cx : TreeCtx) (N : ℕ) : ℕ → List ℝ
  | 0 => (layerPrices cx.S_tree cx.u cx.d N).map (fun sv => payoff cx.ot cx.K sv)
  | k + 1 => backstep cx (N - (k + 1)) (valsFrom cx N k)

/-- Tree context assembled from the raw request parameters
(financial.py lines 453-466). -/
noncomputable def mkTreeCtx (S K T r q : ℝ) (divs : List Dividend) (sigma : ℝ)
    (ot : OptType) (st : ExStyle) (N : ℕ) : TreeCtx :=
  { S_tree := S - pvDivsOf r T divs
    K := K
    r := r
    u := treeU sigma T N
    d := treeD sigma T N
    p := treeP r q sigma T N
    disc := treeDisc r T N
    dt := treeDt T N
    vd := validDivs T divs
    ot := ot
    st := st }

/-- Binomial pricing routine `_calculate_binomial_price` (financial.py lines
442-545) with `return_greeks=True`, returning
`(price, delta, gamma, theta_daily)`.  With `return_greeks=False` the code
computes the identical price and skips the Greeks, so those call sites are
modelled by projecting onto the first component.  The `val_node` captures are
initialised to `0.0` and written only when the backward loop actually visits
layers 2 (`N ≥ 3`) and 1 (`N ≥ 2`), exactly as in the source. -/
noncomputable def _calculate_binomial_price (S K T r q : ℝ) (divs : List Dividend)
    (sigma : ℝ) (ot : OptType) (st : ExStyle) (N : ℕ) :
    Except String (ℝ × ℝ × ℝ × ℝ) :=
  if T ≤ 0 then .ok (payoff ot K S, 0, 0, 0)
  else
    let cx := mkTreeCtx S K T r q divs sigma ot st N
    if cx.S_tree ≤ 0 then .error ("Present value of dividends exceeds spot price")
    else
      let price := (valsFrom cx N N).headD 0
      let val_node_1_0 := if 2 ≤ N then (valsFrom cx N (N - 1)).getD 0 0 else 0
      let val_node_1_1 := if 2 ≤ N then (valsFrom cx N (N - 1)).getD 1 0 else 0
      let val_node_2_0 := if 3 ≤ N then (valsFrom cx N (N - 2)).getD 0 0 else 0
      let val_node_2_1 := if 3 ≤ N then (valsFrom cx N (N - 2)).getD 1 0 else 0
      let val_node_2_2 := if 3 ≤ N then (valsFrom cx N (N - 2)).getD 2 0 else 0
      let pv_rem_1 := pvRemainingOf r cx.vd (1 * cx.dt)
      let S_u := cx.S_tree * cx.u + pv_rem_1
      let S_d := cx.S_tree * cx.d + pv_rem_1
      let delta := (val_node_1_0 - val_node_1_1) / (S_u - S_d)
      let pv_rem_2 := pvRemainingOf r cx.vd (2 * cx.dt)
      let S_uu := cx.S_tree * cx.u * cx.u + pv_rem_2
      let S_ud := cx.S_tree + pv_rem_2
      let S_dd := cx.S_tree * cx.d * cx.d + pv_rem_2
      let delta_u := (val_node_2_0 - val_node_2_1) / (S_uu - S_ud)
      let delta_d := (val_node_2_1 - val_node_2_2) / (S_ud - S_dd)
      let h := 0.5 * (S_uu - S_dd)
      let gamma := (delta_u - delta_d) / h
      let theta_daily := (val_node_2_1 - price) / (2 * cx.dt) / 365
      .ok (price, delta, gamma, theta_daily)

/-- Result payload of `financial_option_price`. -/
structure OptionResult where
  price : ℝ
  delta : ℝ
  gamma : ℝ
  theta : ℝ
  vega : ℝ
  rho : ℝ

/-- Handler `handle_option_price` (financial.py lines 547-613): validation of
`S`, `K`, `sigma`, `steps`, the base greeks computation and the two
finite-difference re-pricings (volatility bump `+0.001` for Vega, rate bump
`+0.001` for Rho, both scaled to a per-1% sensitivity).  The step count is a
natural number here; the source reads an `int` and rejects values below 1. -/
noncomputable def handle_option_price (S K T r q : ℝ) (divs : List Dividend)
    (sigma : ℝ) (ot : OptType) (st : ExStyle) (N : ℕ) : Except String OptionResult :=
  if S < 0 then .error ("Spot price (S) must be non-negative")
  else if K < 0 then .error ("Strike price (K) must be non-negative")
  else if sigma < 0 then .error ("Volatility (sigma) must be non-negative")
  else if N < 1 then .error ("Steps must be at least 1")
  else do
    let base ← _calculate_binomial_price S K T r q divs sigma ot st N
    let price_bump_sigma ←
      (_calculate_binomial_price S K T r q divs (sigma + 0.001) ot st N).map
        (fun t => t.1)
    let vega := (price_bump_sigma - base.1) / 0.001 * 0.01
    let price_bump_r ←
      (_calculate_binomial_price S K T (r + 0.001) q divs sigma ot st N).map
        (fun t => t.1)
    let rho := (price_bump_r - base.1) / 0.001 * 0.01
    .ok { price := base.1, delta := base.2.1, gamma := base.2.2.1,
          theta := base.2.2.2, vega := vega, rho := rho }

/-- Result payload of `financial_bond_price`. -/
structure BondResult where
  price : ℝ
  macaulay_duration : ℝ
  modified_duration : ℝ
  convexity : ℝ

/-- Bond pricing handler `handle_bond_price` (financial.py lines 615-683).
`n_periods = int(years * frequency)` truncates toward zero, which for the
validated positive `years` is the floor.  The numpy statement
`cash_flows[-1] += face_value` raises `IndexError` on an empty array; the
embedding surfaces that failure as an explicit error when `n_periods = 0`. -/
noncomputable def handle_bond_price (face_value coupon_rate : ℝ) (frequency : ℕ)
    (years ytm : ℝ) : Except String BondResult :=
  if face_value < 0 then .error ("Face value must be non-negative")
  else if frequency ≤ 0 then .error ("Frequency must be positive")
  else if years ≤ 0 then .error ("Years to maturity must be positive")
  else if ytm ≤ -1 then .error ("Yield to maturity must be greater than -1.0 (-100%)")
  else
    let n_periods := (⌊years * (frequency : ℝ)⌋).toNat
    if n_periods = 0 then .error ("IndexError: index -1 is out of bounds")
    else
      let r := ytm / (frequency : ℝ)
      let c := coupon_rate * face_value / (frequency : ℝ)
      let cash_flow : ℕ → ℝ := fun t => if t = n_periods then c + face_value else c
      let pv_flow : ℕ → ℝ := fun t => cash_flow t * (1 / (1 + r) ^ t)
      let price := ((List.range' 1 n_periods).map pv_flow).sum
      let mac_duration_periods :=
        ((List.range' 1 n_periods).map (fun t : ℕ => (t : ℝ) * pv_flow t)).sum / price
      let mac_duration_years := mac_duration_periods / (frequency : ℝ)
      let mod_duration := mac_duration_years / (1 + r)
      let convexity :=
        ((List.range' 1 n_periods).map (fun t : ℕ => (t : ℝ) * ((t : ℝ) + 1) * pv_flow t)).sum /
          (price * (1 + r) ^ 2) / ((frequency : ℝ) * (frequency : ℝ))
      .ok { price := price, macaulay_duration := mac_duration_years,
            modified_duration := mod_duration, convexity := convexity }

/-! Technical indicators (`handle_technical_indicators`, financial.py lines
685-909).  numpy `nan` padding entries are modelled as `none : Option ℝ`. -/

/-- Technical indicator request with its parameters (the `params` dict values,
as read with their defaults by the handler). -/
inductive Indicator where
  | sma (window : ℕ)
  | ema (window : ℕ)
  | rsi (window : ℕ)
  | macd (fast slow signal : ℕ)
  | bollinger (window : ℕ) (num_std : ℝ)
  | cross (short_window long_window : ℕ)
  | pe (price earnings : Option ℝ)

/-- Technical-indicator result payloads. -/
inductive TIResult where
  | peVal (v : ℝ)
  | series (values : List (Option ℝ))
  | macdSeries (macd_line signal_line histogram : List ℝ)
  | bands (middle upper lower : List (Option ℝ))
  | crossSignal (sig : String) (sma_short sma_long : Option ℝ)

/-- Tail of the recursive EMA: each output is
`alpha * price + (1 - alpha) * previous`. -/
noncomputable def emaFrom (alpha prev : ℝ) : List ℝ → List ℝ
  | [] => []
  | pr :: ps =>
      let e := alpha * pr + (1 - alpha) * prev
      e :: emaFrom alpha e ps

/-- Recursive exponential moving average `calc_ema` (financial.py lines
811-817 and 744-753): seeded with the first price. -/
noncomputable def calc_ema (alpha : ℝ) : List ℝ → List ℝ
  | [] => []
  | pr :: ps => pr :: emaFrom alpha pr ps

/-- Valid-mode moving average `np.convolve(prices, ones(w)/w, "valid")`:
the mean of each length-`w` window (assumes `w ≤ prices.length`, which every
caller validates). -/
noncomputable def smaValid (prices : List ℝ) (w : ℕ) : List ℝ :=
  (List.range (prices.length - w + 1)).map
    (fun i => ((prices.drop i).take w).sum / (w : ℝ))

/-- NaN padding used by the indicator handlers: `w - 1` leading `nan` entries
followed by the valid values. -/
def padNaN (w : ℕ) (l : List ℝ) : List (Option ℝ) :=
  List.replicate (w - 1) none ++ l.map some

/-- Population standard deviation `np.std` of a window. -/
noncomputable def stdOf (l : List ℝ) : ℝ :=
  Real.sqrt ((l.map (fun v => (v - meanOf l) ^ 2)).sum / l.length)

/-- First differences `np.diff(prices)`. -/
noncomputable def diffs (l : List ℝ) : List ℝ :=
  List.zipWith (fun a b => b - a) l l.tail

/-- Wilder-smoothed averages for RSI (financial.py lines 774-785): the seed is
the plain mean of the first `w` values, then
`avg[i] = (avg[i-1] * (w - 1) + v[i-1]) / w`. -/
noncomputable def wilderAvgs (w : ℕ) (vals : List ℝ) : List ℝ :=
  let a0 := (vals.take w).sum / (w : ℝ)
  List.scanl (fun a g => (a * ((w : ℝ) - 1) + g) / (w : ℝ)) a0 (vals.drop w)

/-- RSI value list (financial.py lines 768-797): the first `window` entries
are `nan`; afterwards `rsi = 100 - 100 / (1 + avg_gain / avg_loss)` when the
average loss is positive and `100` otherwise. -/
noncomputable def rsiValues (prices : List ℝ) (w : ℕ) : List (Option ℝ) :=
  let deltas := diffs prices
  let gains := deltas.map (fun dv => max dv 0)
  let losses := deltas.map (fun dv => max (-dv) 0)
  List.replicate w none ++
    List.zipWith (fun g l => some (if 0 < l then 100 - 100 / (1 + g / l) else 100))
      (wilderAvgs w gains) (wilderAvgs w losses)

/-- Python float `>` on possibly-NaN values: any comparison involving NaN is
false. -/
noncomputable def floatGt (a b : Option ℝ) : Bool :=
  match a, b with
  | some x, some y => decide (y < x)
  | _, _ => false

/-- Technical-indicator handler `handle_technical_indicators` (financial.py
lines 685-909).  Window parameters are naturals; the source reads `int`s and
rejects nonpositive ones wherever it validates at all. -/
noncomputable def handle_technical_indicators (ind : Indicator) (prices : List ℝ) :
    Except String TIResult :=
  match ind with
  | .pe price earnings =>
      let price' := match price with
        | some pv => some pv
        | none => prices.getLast?
      match price', earnings with
      | some pv, some ev =>
          if ev = 0 then .error ("Earnings cannot be zero for PE ratio")
          else .ok (.peVal (pv / ev))
      | _, _ => .error ("pe_ratio requires price and earnings in params")
  | .sma window =>
      if prices = [] then .error ("Indicator requires prices list")
      else if window ≤ 0 then .error ("Window must be positive")
      else if prices.length < window then .error ("Not enough data for SMA")
      else .ok (.series (padNaN window (smaValid prices window)))
  | .ema window =>
      if prices = [] then .error ("Indicator requires prices list")
      else if window ≤ 0 then .error ("Window must be positive")
      else if prices.length < window then .error ("Not enough data for EMA")
      else .ok (.series ((calc_ema (2 / ((window : ℝ) + 1)) prices).map some))
  | .rsi window =>
      if prices = [] then .error ("Indicator requires prices list")
      else if window ≤ 0 then .error ("Window must be positive")
      else if prices.length < window + 1 then .error ("Not enough data for RSI")
      else .ok (.series (rsiValues prices window))
  | .macd fast slow signal =>
      if prices = [] then .error ("Indicator requires prices list")
      else
        let ema_fast := calc_ema (2 / ((fast : ℝ) + 1)) prices
        let ema_slow := calc_ema (2 / ((slow : ℝ) + 1)) prices
        let macd_line := List.zipWith (fun a b => a - b) ema_fast ema_slow
        let signal_line := calc_ema (2 / ((signal : ℝ) + 1)) macd_line
        let histogram := List.zipWith (fun a b => a - b) macd_line signal_line
        .ok (.macdSeries macd_line signal_line histogram)
  | .bollinger window num_std =>
      if prices = [] then .error ("Indicator requires prices list")
      else if window ≤ 0 then .error ("Window must be positive")
      else if prices.length < window then .error ("Not enough data for Bollinger Bands")
      else
        let sma := smaValid prices window
        let rolling_std := (List.range (prices.length - window + 1)).map
          (fun i => stdOf ((prices.drop i).take window))
        .ok (.bands (padNaN window sma)
          (padNaN window (List.zipWith (fun m sd => m + num_std * sd) sma rolling_std))
          (padNaN window (List.zipWith (fun m sd => m - num_std * sd) sma rolling_std)))
  | .cross short_window long_window =>
      if prices = [] then .error ("Indicator requires prices list")
      else if prices.length < long_window then .error ("Not enough data for Cross Signal")
      else
        let n := prices.length
        let sma_short := padNaN short_window (smaValid prices short_window)
        let sma_long := padNaN long_window (smaValid prices long_window)
        let current_short := sma_short.getD (n - 1) none
        let current_long := sma_long.getD (n - 1) none
        let prev_short := sma_short.getD (n - 2) none
        let prev_long := sma_long.getD (n - 2) none
        let sig : String :=
          if floatGt prev_short prev_long && floatGt current_long current_short
            then "death_cross"
          else if floatGt prev_long prev_short && floatGt current_short current_long
            then "golden_cross"
          else "neutral"
        .ok (.crossSignal sig current_short current_long)

/-! Spec-side definitions used to state claims (written from the
specification's wording, for comparison against the embedded code). -/

/-- Points the specification says the outlier filter keeps: the pairs whose
modified Z-score `0.6745 * |residual| / MAD` is strictly below `3.5`. -/
noncomputable def keptPoints (x y : List ℝ) : List (ℝ × ℝ) :=
  (x.zip y).filter (fun q =>
    decide (0.6745 * |q.2 - ((olsLine x y).1 * q.1 + (olsLine x y).2)| / madOf x y < 3.5))

/-! Supporting lemmas. -/

/-- Invariant of the `pickMin` fold: the result either is the accumulator and
minimal for the whole list, or it splits the list as `l₁ ++ r :: l₂` with `r`
strictly below the accumulator and every element of `l₁`, and at most every
element of `l₂` (i.e. `r` is the first minimum). -/
theorem foldl_pickMin_spec {α : Type} [LinearOrder α] :
    ∀ (l : List (FitResult α)) (acc : FitResult α),
      (l.foldl pickMin acc = acc ∧ ∀ x ∈ l, acc.aic ≤ x.aic) ∨
      (∃ l₁ l₂, l = l₁ ++ (l.foldl pickMin acc) :: l₂ ∧
        (l.foldl pickMin acc).aic < acc.aic ∧
        (∀ x ∈ l₁, (l.foldl pickMin acc).aic < x.aic) ∧
        (∀ x ∈ l₂, (l.foldl pickMin acc).aic ≤ x.aic)) := by
  intro l
  induction l with
  | nil => exact fun acc => Or.inl ⟨rfl, by simp⟩
  | cons c rest ih =>
    intro acc
    have hstep : (c :: rest).foldl pickMin acc = rest.foldl pickMin (pickMin acc c) := rfl
    by_cases hc : c.aic < acc.aic
    · have hpick : pickMin acc c = c := if_pos hc
      rcases ih c with ⟨hr, hall⟩ | ⟨l₁, l₂, heq, hlt, h1, h2⟩
      · refine Or.inr ⟨[], rest, ?_, ?_, by simp, ?_⟩
        · simp [hstep, hpick, hr]
        · rw [hstep, hpick, hr]; exact hc
        · intro x hx; rw [hstep, hpick, hr]; exact hall x hx
      · refine Or.inr ⟨c :: l₁, l₂, ?_, ?_, ?_, ?_⟩
        · rw [hstep, hpick]; simpa using heq
        · rw [hstep, hpick]; exact lt_trans hlt hc
        · intro x hx
          rw [hstep, hpick]
          rcases List.mem_cons.mp hx with hx | hx
          · subst hx; exact hlt
          · exact h1 x hx
        · intro x hx; rw [hstep, hpick]; exact h2 x hx
    · have hpick : pickMin acc c = acc := if_neg hc
      have hle : acc.aic ≤ c.aic := le_of_not_lt hc
      rcases ih acc with ⟨hr, hall⟩ | ⟨l₁, l₂, heq, hlt, h1, h2⟩
      · refine Or.inl ⟨by simp [hstep, hpick, hr], ?_⟩
        intro x hx
        rcases List.mem_cons.mp hx with hx | hx
        · subst hx; exact hle
        · exact hall x hx
      · refine Or.inr ⟨c :: l₁, l₂, ?_, ?_, ?_, ?_⟩
        · rw [hstep, hpick]; simpa using heq
        · rw [hstep, hpick]; exact hlt
        · intro x hx
          rw [hstep, hpick]
          rcases List.mem_cons.mp hx with hx | hx
          · subst hx; exact lt_of_lt_of_le hlt hle
          · exact h1 x hx
        · intro x hx; rw [hstep, hpick]; exact h2 x hx

/-- Characterisation of a successful `selectBest`: the winner is the first
candidate attaining the minimal AIC. -/
theorem selectBest_spec {α : Type} [LinearOrder α] (l : List (FitResult α))
    (c : FitResult α) (h : selectBest l = some c) :
    ∃ l₁ l₂, l = l₁ ++ c :: l₂ ∧ (∀ x ∈ l₁, c.aic < x.aic) ∧ (∀ x ∈ l₂, c.aic ≤ x.aic) := by
  match l, h with
  | c₀ :: rest, h =>
    have hc : rest.foldl pickMin c₀ = c := by
      simpa [selectBest] using h
    rcases foldl_pickMin_spec rest c₀ with ⟨hr, hall⟩ | ⟨l₁, l₂, heq, hlt, h1, h2⟩
    · refine ⟨[], rest, ?_, by simp, ?_⟩
      · rw [← hc, hr]; simp
      · intro x hx
        rw [← hc, hr]
        exact hall x hx
    · rw [hc] at heq hlt h1 h2
      refine ⟨c₀ :: l₁, l₂, by simpa using heq, ?_, h2⟩
      intro x hx
      rcases List.mem_cons.mp hx with hx | hx
      · subst hx; exact hlt
      · exact h1 x hx

/-- C1: in `handle_fit`, when at least one model family produces a feasible
candidate, the selected model is a feasible candidate with minimal AIC among
all feasible candidates, ties broken in favour of the candidate generated
first in the fixed fitter order encoded by `buildCandidates` (polynomial
degrees ascending, then exponential, logarithmic, power, sigmoid); an AIC of
`⊥` (the float `-inf`) is smaller than every finite AIC and hence selectable;
and when no candidate is feasible the call is rejected with the input error
"Could not fit any model to the data". -/
theorem c1_min_aic_selection (mt : String) (deg : Option ℕ) (n : ℕ)
    (fitPoly : ℕ → Option (FitResult (WithBot ℝ)))
    (fitExp fitLog fitPow fitSig : Option (FitResult (WithBot ℝ)))
    (cands : List (Option (FitResult (WithBot ℝ))))
    (valid : List (FitResult (WithBot ℝ)))
    (hc : cands = buildCandidates mt deg n fitPoly fitExp fitLog fitPow fitSig)
    (hv : valid = cands.filterMap id) :
    (valid = [] →
      handle_fit_select cands = .error ("Could not fit any model to the data")) ∧
    (valid ≠ [] → ∃ c, handle_fit_select cands = .ok c) ∧
    (∀ c, handle_fit_select cands = .ok c →
      ∃ l₁ l₂, valid = l₁ ++ c :: l₂ ∧
        (∀ x ∈ valid, c.aic ≤ x.aic) ∧ (∀ x ∈ l₁, c.aic < x.aic)) ∧
    (∀ a : ℝ, (⊥ : WithBot ℝ) < (a : WithBot ℝ)) := by
  subst hv
  refine ⟨?_, ?_, ?_, fun a => WithBot.bot_lt_coe a⟩
  · intro hempty
    simp [handle_fit_select, hempty, selectBest]
  · intro hne
    obtain ⟨c₀, rest, hveq⟩ := List.exists_cons_of_ne_nil hne
    refine ⟨rest.foldl pickMin c₀, ?_⟩
    simp [handle_fit_select, hveq, selectBest]
  · intro c hok
    have hsel : selectBest (cands.filterMap id) = some c := by
      rcases h : selectBest (cands.filterMap id) with _ | c'
      · simp [handle_fit_select, h] at hok
      · simpa [handle_fit_select, h] using hok
    obtain ⟨l₁, l₂, heq, h1, h2⟩ := selectBest_spec _ c hsel
    refine ⟨l₁, l₂, heq, ?_, h1⟩
    intro x hx
    rw [heq] at hx
    rcases List.mem_append.mp hx with hx | hx
    · exact le_of_lt (h1 x hx)
    · rcases List.mem_cons.mp hx with hx | hx
      · subst hx; exact le_refl _
      · exact h2 x hx

/-- Witness for C1: with only the exponential fitter feasible, selection
succeeds. -/
theorem c1_min_aic_selection_witness :
    ∃ c, handle_fit_select (buildCandidates "exponential" none 3 (fun _ => none)
      (some ⟨"exponential", [], 0, 0, "", (⊥ : WithBot ℝ)⟩) none none none)
        = Except.ok c := by
  refine (c1_min_aic_selection "exponential" none 3 (fun _ => none)
    (some ⟨"exponential", [], 0, 0, "", (⊥ : WithBot ℝ)⟩) none none none _ _
    rfl rfl).2.1 ?_
  simp [buildCandidates, polyDegrees]

/-- C2: for `n` paired true/predicted values and parameter count `k`, the
metric calculator returns `RMSE = sqrt(SSE / n)`, `R² = 1 - SSE / SST` except
`R² = 0` when `SST < 1e-10`, and `AIC = n * ln(SSE / n) + 2k` except
`AIC = -inf` (`⊥`) when `SSE < 1e-10`. -/
theorem c2_metric_formulas (y_true y_pred : List ℝ) (k : ℕ)
    (hlen : y_true.length = y_pred.length) :
    (_calculate_metrics y_true y_pred k).2.1 =
      Real.sqrt (sseOf y_true y_pred / y_true.length) ∧
    (sstOf y_true < 1e-10 → (_calculate_metrics y_true y_pred k).1 = 0) ∧
    (1e-10 ≤ sstOf y_true →
      (_calculate_metrics y_true y_pred k).1 = 1 - sseOf y_true y_pred / sstOf y_true) ∧
    (sseOf y_true y_pred < 1e-10 → (_calculate_metrics y_true y_pred k).2.2 = ⊥) ∧
    (1e-10 ≤ sseOf y_true y_pred →
      (_calculate_metrics y_true y_pred k).2.2 =
        (((y_true.length : ℝ) * Real.log (sseOf y_true y_pred / y_true.length)
          + 2 * k : ℝ) : WithBot ℝ)) := by
  refine ⟨rfl, fun h => ?_, fun h => ?_, fun h => ?_, fun h => ?_⟩
  · simp only [_calculate_metrics]
    rw [if_pos h]
  · simp only [_calculate_metrics]
    rw [if_neg (not_lt.mpr h)]
  · simp only [_calculate_metrics]
    rw [if_pos h]
  · simp only [_calculate_metrics]
    rw [if_neg (not_lt.mpr h)]

/-- Witness for C2 at a concrete three-point input. -/
theorem c2_metric_formulas_witness :
    (_calculate_metrics [0, 1, 2] [0, 1, 2] 1).2.1 =
      Real.sqrt (sseOf [0, 1, 2] [0, 1, 2] / ([0, 1, 2] : List ℝ).length) :=
  (c2_metric_formulas [0, 1, 2] [0, 1, 2] 1 rfl).1

/-- Unfolding of `maskSelect` on a cons cell. -/
theorem maskSelect_cons {α : Type} (a : α) (l : List α) (b : Bool) (mask : List Bool) :
    maskSelect (a :: l) (b :: mask) = (if b then [a] else []) ++ maskSelect l mask := by
  cases b <;> simp [maskSelect]

/-- Boolean-mask selection of the first components agrees with filtering the
zipped pairs, when the mask is the test `p` applied to `f` of each pair. -/
theorem maskSelect_fst {α β γ : Type} (p : γ → Bool) (f : α → β → γ) :
    ∀ (x : List α) (y : List β), x.length = y.length →
      maskSelect x ((List.zipWith f x y).map p) =
        ((x.zip y).filter (fun q => p (f q.1 q.2))).map Prod.fst
  | [], [], _ => rfl
  | a :: xs, b :: ys, h => by
      have ih := maskSelect_fst p f xs ys (by simpa using h)
      by_cases hp : p (f a b) <;>
        simp [maskSelect_cons, hp, ih]

/-- Boolean-mask selection of the second components agrees with filtering the
zipped pairs. -/
theorem maskSelect_snd {α β γ : Type} (p : γ → Bool) (f : α → β → γ) :
    ∀ (x : List α) (y : List β), x.length = y.length →
      maskSelect y ((List.zipWith f x y).map p) =
        ((x.zip y).filter (fun q => p (f q.1 q.2))).map Prod.snd
  | [], [], _ => rfl
  | a :: xs, b :: ys, h => by
      have ih := maskSelect_snd p f xs ys (by simpa using h)
      by_cases hp : p (f a b) <;>
        simp [maskSelect_cons, hp, ih]

/-- The number of `true` entries of the mask equals the number of kept pairs. -/
theorem count_mask {α β γ : Type} (p : γ → Bool) (f : α → β → γ) :
    ∀ (x : List α) (y : List β), x.length = y.length →
      ((List.zipWith f x y).map p).count true =
        ((x.zip y).filter (fun q => p (f q.1 q.2))).length
  | [], [], _ => rfl
  | a :: xs, b :: ys, h => by
      have ih := count_mask p f xs ys (by simpa using h)
      by_cases hp : p (f a b) <;>
        simp [hp, ih, List.count_cons]

/-- C4: the outlier filter fits a least-squares line, computes
`MAD = median(|residuals|)`, and when `MAD > 1e-9` keeps exactly the points
whose modified Z-score `0.6745 * |residual| / MAD` is strictly below `3.5` —
unless fewer than 3 points would remain, in which case (and also whenever
`MAD ≤ 1e-9`) the original arrays pass through unchanged. -/
theorem c4_outlier_filter (x y : List ℝ) (hlen : x.length = y.length)
    (h3 : 3 ≤ x.length) :
    (madOf x y ≤ 1e-9 → outlierFilter x y = (x, y)) ∧
    (1e-9 < madOf x y → 3 ≤ (keptPoints x y).length →
      outlierFilter x y = ((keptPoints x y).map Prod.fst, (keptPoints x y).map Prod.snd)) ∧
    (1e-9 < madOf x y → (keptPoints x y).length < 3 → outlierFilter x y = (x, y)) := by
  have hcount : (cleanMask x y).count true = (keptPoints x y).length :=
    count_mask (fun rv => decide (0.6745 * rv / madOf x y < 3.5))
      (fun xi yi => |yi - ((olsLine x y).1 * xi + (olsLine x y).2)|) x y hlen
  have hfst : maskSelect x (cleanMask x y) = (keptPoints x y).map Prod.fst :=
    maskSelect_fst (fun rv => decide (0.6745 * rv / madOf x y < 3.5))
      (fun xi yi => |yi - ((olsLine x y).1 * xi + (olsLine x y).2)|) x y hlen
  have hsnd : maskSelect y (cleanMask x y) = (keptPoints x y).map Prod.snd :=
    maskSelect_snd (fun rv => decide (0.6745 * rv / madOf x y < 3.5))
      (fun xi yi => |yi - ((olsLine x y).1 * xi + (olsLine x y).2)|) x y hlen
  refine ⟨fun h => ?_, fun h1 h2 => ?_, fun h1 h2 => ?_⟩
  · simp only [outlierFilter]
    rw [if_neg (not_lt.mpr h)]
  · simp only [outlierFilter]
    rw [if_pos h1, if_pos (by rw [hcount]; exact h2), hfst, hsnd]
  · simp only [outlierFilter]
    rw [if_pos h1, if_neg (by rw [hcount]; exact not_le.mpr h2)]

/-- Median of three zero residuals is zero (concrete evaluation through the
sort, used by the C4 witness). -/
theorem median_three_zeros : median ([0, 0, 0] : List ℝ) = 0 := by
  have hperm := List.mergeSort_perm ([0, 0, 0] : List ℝ) (fun a b => decide (a ≤ b))
  have hsort : ([0, 0, 0] : List ℝ).mergeSort (fun a b => decide (a ≤ b)) = [0, 0, 0] := by
    have h0 : ([0, 0, 0] : List ℝ) = List.replicate 3 0 := rfl
    rw [h0] at hperm ⊢
    rw [List.eq_replicate_iff]
    refine ⟨hperm.length_eq.trans (by simp), fun b hb => ?_⟩
    have hmem := hperm.mem_iff.mp hb
    simpa using hmem
  simp only [median, hsort]
  norm_num

/-- The linear pre-fit of the data `x = [0,1,2]`, `y = [0,0,0]` has zero
residuals, hence zero MAD. -/
theorem madOf_line_zero : madOf [0, 1, 2] [0, 0, 0] = 0 := by
  have hres : residualsOf [0, 1, 2] [0, 0, 0] = [0, 0, 0] := by
    unfold residualsOf olsLine
    norm_num
  unfold madOf
  rw [hres]
  exact median_three_zeros

/-- Witness for C4 at a concrete three-point input with zero MAD: the arrays
pass through unchanged. -/
theorem c4_outlier_filter_witness :
    outlierFilter [0, 1, 2] [0, 0, 0] = ([0, 1, 2], [0, 0, 0]) :=
  (c4_outlier_filter [0, 1, 2] [0, 0, 0] rfl (by decide)).1
    (by rw [madOf_line_zero]; norm_num)

/-- Equation lemma: degenerate maturity short-circuits to the intrinsic
payoff. -/
theorem calc_binom_T_nonpos (S K T r q : ℝ) (divs : List Dividend) (sigma : ℝ)
    (ot : OptType) (st : ExStyle) (N : ℕ) (hT : T ≤ 0) :
    _calculate_binomial_price S K T r q divs sigma ot st N =
      .ok (payoff ot K S, 0, 0, 0) := by
  unfold _calculate_binomial_price
  rw [if_pos hT]

/-- Equation lemma: with positive maturity and nonpositive escrowed spot the
pricer rejects the request. -/
theorem calc_binom_escrow_err (S K T r q : ℝ) (divs : List Dividend) (sigma : ℝ)
    (ot : OptType) (st : ExStyle) (N : ℕ) (hT : ¬ T ≤ 0)
    (h : S - pvDivsOf r T divs ≤ 0) :
    _calculate_binomial_price S K T r q divs sigma ot st N =
      .error ("Present value of dividends exceeds spot price") := by
  unfold _calculate_binomial_price
  rw [if_neg hT]
  have hS : (mkTreeCtx S K T r q divs sigma ot st N).S_tree ≤ 0 := h
  simp only [if_pos hS]

/-- Equation lemma: with positive maturity and positive escrowed spot the
pricer succeeds (the tree arithmetic is total). -/
theorem calc_binom_ok (S K T r q : ℝ) (divs : List Dividend) (sigma : ℝ)
    (ot : OptType) (st : ExStyle) (N : ℕ) (hT : ¬ T ≤ 0)
    (h : 0 < S - pvDivsOf r T divs) :
    ∃ out, _calculate_binomial_price S K T r q divs sigma ot st N = .ok out := by
  unfold _calculate_binomial_price
  rw [if_neg hT]
  have hS : ¬ (mkTreeCtx S K T r q divs sigma ot st N).S_tree ≤ 0 := not_le.mpr h
  simp only [if_neg hS]
  exact ⟨_, rfl⟩

/-- C5: an option request with `T ≤ 0` that passes the input validation prices
at exactly the intrinsic payoff (`max (S - K) 0` for a call, `max (K - S) 0`
for a put), with no tree built. -/
theorem c5_degenerate_maturity (S K T r q : ℝ) (divs : List Dividend) (sigma : ℝ)
    (ot : OptType) (st : ExStyle) (N : ℕ)
    (hS : 0 ≤ S) (hK : 0 ≤ K) (hsig : 0 ≤ sigma) (hN : 1 ≤ N) (hT : T ≤ 0) :
    ∃ res : OptionResult,
      handle_option_price S K T r q divs sigma ot st N = .ok res ∧
        res.price = payoff ot K S := by
  have hbase := calc_binom_T_nonpos S K T r q divs sigma ot st N hT
  have hb1 := calc_binom_T_nonpos S K T r q divs (sigma + 0.001) ot st N hT
  have hb2 := calc_binom_T_nonpos S K T (r + 0.001) q divs sigma ot st N hT
  unfold handle_option_price
  rw [if_neg (not_lt.mpr hS), if_neg (not_lt.mpr hK), if_neg (not_lt.mpr hsig),
    if_neg (Nat.not_lt.mpr hN)]
  simp only [hbase, hb1, hb2]
  exact ⟨_, rfl, rfl⟩

/-- Witness for C5: the spec's concrete case, a `T = 0` call with `S = 110`,
`K = 100`, prices at exactly `10`. -/
theorem c5_degenerate_maturity_witness :
    ∃ res : OptionResult,
      handle_option_price 110 100 0 0 0 [] 0 .call .european 1 = .ok res ∧
        res.price = 10 := by
  obtain ⟨res, hres, hp⟩ :=
    c5_degenerate_maturity 110 100 0 0 0 [] 0 .call .european 1
      (by norm_num) (by norm_num) (le_refl 0) (le_refl 1) (le_refl 0)
  refine ⟨res, hres, ?_⟩
  rw [hp]
  simp only [payoff]
  norm_num

/-- C6: for `T > 0`, the engine subtracts the escrow present value
`pvDivsOf r T divs = Σ amount * exp(-r * time)` over the dividends with
`0 < time ≤ T` from the spot, fails with the input error exactly when the
escrowed spot is `≤ 0`, and otherwise produces a complete result (no partial
output on the error path). -/
theorem c6_escrow_rejection (S K T r q : ℝ) (divs : List Dividend) (sigma : ℝ)
    (ot : OptType) (st : ExStyle) (N : ℕ) (hT : 0 < T) :
    (S - pvDivsOf r T divs ≤ 0 →
      _calculate_binomial_price S K T r q divs sigma ot st N =
        .error ("Present value of dividends exceeds spot price")) ∧
    (0 < S - pvDivsOf r T divs →
      ∃ out, _calculate_binomial_price S K T r q divs sigma ot st N = .ok out) := by
  constructor
  · exact fun h => calc_binom_escrow_err S K T r q divs sigma ot st N (not_le.mpr hT) h
  · exact fun h => calc_binom_ok S K T r q divs sigma ot st N (not_le.mpr hT) h

/-- Escrow present value of a single at-maturity dividend of 2 at zero rate. -/
theorem pvDivs_example : pvDivsOf 0 1 [⟨2, 1⟩] = 2 := by
  have hfilter : validDivs 1 [⟨2, 1⟩] = [⟨2, 1⟩] := by
    unfold validDivs
    rw [List.filter_cons_of_pos]
    · rfl
    · rw [decide_eq_true_eq]
      exact ⟨by norm_num, le_refl 1⟩
  unfold pvDivsOf
  rw [hfilter]
  simp

/-- Witness for C6: a dividend whose present value exhausts the spot makes the
call fail with the escrow input error. -/
theorem c6_escrow_rejection_witness :
    _calculate_binomial_price 1 1 1 0 0 [⟨2, 1⟩] 1 .call .american 1 =
      .error ("Present value of dividends exceeds spot price") :=
  (c6_escrow_rejection 1 1 1 0 0 [⟨2, 1⟩] 1 .call .american 1 (by norm_num)).1
    (by rw [pvDivs_example]; norm_num)

/-- Dividend lists that already went through the validity filter are fixed
points of the filter. -/
theorem validDivs_filter (T : ℝ) (divs : List Dividend) :
    validDivs T (divs.filter (fun dv => decide (0 < dv.time ∧ dv.time ≤ T))) =
      validDivs T divs := by
  simp [validDivs, List.filter_filter]

/-- The escrow present value only depends on the valid dividends. -/
theorem pvDivsOf_filter (r T : ℝ) (divs : List Dividend) :
    pvDivsOf r T (divs.filter (fun dv => decide (0 < dv.time ∧ dv.time ≤ T))) =
      pvDivsOf r T divs := by
  unfold pvDivsOf
  rw [validDivs_filter]

/-- The whole tree context only depends on the valid dividends. -/
theorem mkTreeCtx_filter (S K T r q : ℝ) (divs : List Dividend) (sigma : ℝ)
    (ot : OptType) (st : ExStyle) (N : ℕ) :
    mkTreeCtx S K T r q (divs.filter (fun dv => decide (0 < dv.time ∧ dv.time ≤ T)))
        sigma ot st N =
      mkTreeCtx S K T r q divs sigma ot st N := by
  unfold mkTreeCtx
  rw [validDivs_filter, pvDivsOf_filter]

/-- The full pricing routine only depends on the valid dividends. -/
theorem calc_binom_filter (S K T r q : ℝ) (divs : List Dividend) (sigma : ℝ)
    (ot : OptType) (st : ExStyle) (N : ℕ) :
    _calculate_binomial_price S K T r q
        (divs.filter (fun dv => decide (0 < dv.time ∧ dv.time ≤ T))) sigma ot st N =
      _calculate_binomial_price S K T r q divs sigma ot st N := by
  unfold _calculate_binomial_price
  rw [mkTreeCtx_filter]

/-- C10: dividend entries with `time ≤ 0` or `time > T` are silently ignored
everywhere (escrow sum, remaining-dividend reconstruction during American
induction, tree-Greek asset reconstruction, and the Vega/Rho re-pricings):
they never trigger an input error, and the full result equals that of the
same request with those entries deleted. -/
theorem c10_invalid_dividends_ignored (S K T r q : ℝ) (divs : List Dividend)
    (sigma : ℝ) (ot : OptType) (st : ExStyle) (N : ℕ) :
    handle_option_price S K T r q divs sigma ot st N =
      handle_option_price S K T r q
        (divs.filter (fun dv => decide (0 < dv.time ∧ dv.time ≤ T))) sigma ot st N ∧
    _calculate_binomial_price S K T r q divs sigma ot st N =
      _calculate_binomial_price S K T r q
        (divs.filter (fun dv => decide (0 < dv.time ∧ dv.time ≤ T))) sigma ot st N := by
  constructor
  · unfold handle_option_price
    rw [calc_binom_filter S K T r q divs sigma ot st N,
      calc_binom_filter S K T r q divs (sigma + 0.001) ot st N,
      calc_binom_filter S K T (r + 0.001) q divs sigma ot st N]
  · rw [calc_binom_filter]

/-- Geometric annuity identity: the discounted value of a level payment of
`r` per period over `n` periods at per-period rate `r` is `1 - (1+r)^(-n)`. -/
theorem geom_par (r : ℝ) (hr : 1 + r ≠ 0) :
    ∀ n : ℕ, ((List.range' 1 n).map (fun t => r * (1 / (1 + r) ^ t))).sum =
      1 - 1 / (1 + r) ^ n := by
  intro n
  induction n with
  | zero => simp
  | succ m ih =>
    rw [List.range'_concat, List.map_append, List.sum_append]
    simp only [List.map_singleton, List.sum_singleton]
    rw [ih]
    have hpow : (1 + r) ^ m ≠ 0 := pow_ne_zero _ hr
    have hexp : 1 + 1 * m = m + 1 := by omega
    have hstep2 : (1 + r) ^ (m + 1) = (1 + r) * (1 + r) ^ m := by
      rw [pow_succ]; ring
    rw [hexp, hstep2]
    field_simp
    ring

/-- A bond whose coupon rate equals its per-period yield prices at par. -/
theorem bond_price_at_par (F rr : ℝ) (m : ℕ) (hr : 1 + rr ≠ 0) :
    ((List.range' 1 (m + 1)).map
      (fun t => (if t = m + 1 then rr * F + F else rr * F) * (1 / (1 + rr) ^ t))).sum
      = F := by
  have hsplit :
      ((List.range' 1 (m + 1)).map
        (fun t => (if t = m + 1 then rr * F + F else rr * F) * (1 / (1 + rr) ^ t))).sum
      = ((List.range' 1 (m + 1)).map (fun t => rr * F * (1 / (1 + rr) ^ t))).sum
        + F * (1 / (1 + rr) ^ (m + 1)) := by
    rw [List.range'_concat, List.map_append, List.sum_append,
      List.map_append, List.sum_append]
    simp only [List.map_singleton, List.sum_singleton]
    have hcongr : (List.range' 1 m).map
        (fun t => (if t = m + 1 then rr * F + F else rr * F) * (1 / (1 + rr) ^ t))
        = (List.range' 1 m).map (fun t => rr * F * (1 / (1 + rr) ^ t)) := by
      apply List.map_congr_left
      intro t ht
      have htlt : t < 1 + m := (List.mem_range'_1.mp ht).2
      rw [if_neg (by omega)]
    rw [hcongr]
    rw [if_pos (by omega)]
    have hexp : 1 + 1 * m = m + 1 := by omega
    rw [hexp]
    ring
  rw [hsplit]
  have hmul : ((List.range' 1 (m + 1)).map (fun t => rr * F * (1 / (1 + rr) ^ t))).sum
      = F * ((List.range' 1 (m + 1)).map (fun t => rr * (1 / (1 + rr) ^ t))).sum := by
    have hfn : (fun t : ℕ => rr * F * (1 / (1 + rr) ^ t))
        = fun t : ℕ => F * (rr * (1 / (1 + rr) ^ t)) := by
      funext t; ring
    rw [hfn, ← List.sum_map_mul_left]
  rw [hmul, geom_par rr hr (m + 1)]
  ring

/-- C9: a validation-passing bond request with `coupon_rate = yield_to_maturity`
that produces a result prices exactly at the face value. -/
theorem c9_par_bond (face_value coupon_rate : ℝ) (frequency : ℕ) (years ytm : ℝ)
    (hface : 0 ≤ face_value) (hfreq : 1 ≤ frequency) (hyears : 0 < years)
    (hytm : -1 < ytm) (hpar : coupon_rate = ytm) (out : BondResult)
    (hok : handle_bond_price face_value coupon_rate frequency years ytm = .ok out) :
    out.price = face_value := by
  have hfreqR : (1 : ℝ) ≤ (frequency : ℝ) := by exact_mod_cast hfreq
  have hfpos : (0 : ℝ) < (frequency : ℝ) := by linarith
  have hrgt : -1 < ytm / (frequency : ℝ) := by
    rw [lt_div_iff₀ hfpos]
    nlinarith
  have hr : (1 + ytm / (frequency : ℝ)) ≠ 0 := by
    have : (0 : ℝ) < 1 + ytm / (frequency : ℝ) := by linarith
    exact ne_of_gt this
  simp only [handle_bond_price] at hok
  split_ifs at hok with h1 h2 h3 h4 h5
  obtain ⟨m, hm⟩ := Nat.exists_eq_succ_of_ne_zero h5
  rw [Nat.succ_eq_add_one] at hm
  rw [hm] at hok
  injection hok with h
  rw [← h]
  dsimp only
  have hc : coupon_rate * face_value / (frequency : ℝ)
      = ytm / (frequency : ℝ) * face_value := by
    rw [hpar]; ring
  refine Eq.trans ?_ (bond_price_at_par face_value (ytm / (frequency : ℝ)) m hr)
  apply congrArg List.sum
  apply List.map_congr_left
  intro t _
  rw [hc]

/-- Witness for C9: a two-period semiannual bond at par prices at its face
value. -/
theorem c9_par_bond_witness :
    ∃ out : BondResult, handle_bond_price 100 0.05 2 1 0.05 = .ok out ∧
      out.price = 100 := by
  have hok : ∃ out, handle_bond_price 100 0.05 2 1 0.05 = .ok out := by
    simp only [handle_bond_price]
    rw [if_neg (by norm_num), if_neg (by norm_num), if_neg (by norm_num),
      if_neg (by norm_num), if_neg (by norm_num)]
    exact ⟨_, rfl⟩
  obtain ⟨out, hout⟩ := hok
  exact ⟨out, hout, c9_par_bond 100 0.05 2 1 0.05 (by norm_num) (by norm_num)
    (by norm_num) (by norm_num) rfl out hout⟩

/-- C7 evaluation: a validation-passing request (`years = 0.5`,
`frequency = 1`) truncates to zero coupon periods and the handler fails on
the empty cash-flow array instead of producing a result. -/
theorem c7_zero_period_failure :
    handle_bond_price 100 0.05 1 0.5 0.05 =
      .error ("IndexError: index -1 is out of bounds") := by
  simp only [handle_bond_price]
  rw [if_neg (by norm_num), if_neg (by norm_num), if_neg (by norm_num),
    if_neg (by norm_num), if_pos]
  norm_num

/-- Invalid-input failure of a handler call. -/
def isInputError {α : Type} (e : Except String α) : Prop := ∃ msg, e = .error msg

/-- Counterexample for C8: MACD performs no insufficient-data validation.
The claim says an indicator with lookback window `W` (here `slow = 26`) on
fewer than `W` price points must fail, but MACD on two price points
succeeds. -/
theorem c8_macd_counterexample :
    ∃ v, handle_technical_indicators (.macd 12 26 9) [1, 2] = .ok v :=
  ⟨_, by
    simp only [handle_technical_indicators]
    rw [if_neg (by simp)]⟩

/-- C8 (amended): SMA, EMA, RSI, Bollinger and cross-signal reject inputs
shorter than their lookback window (`window + 1` for RSI) with an
invalid-input error and never return a truncated result, while MACD performs
no window validation and succeeds on every nonempty price list. -/
theorem c8_insufficient_data (prices : List ℝ) :
    (∀ w : ℕ, prices.length < w →
      isInputError (handle_technical_indicators (.sma w) prices)) ∧
    (∀ w : ℕ, prices.length < w →
      isInputError (handle_technical_indicators (.ema w) prices)) ∧
    (∀ w : ℕ, prices.length < w + 1 →
      isInputError (handle_technical_indicators (.rsi w) prices)) ∧
    (∀ (w : ℕ) (ns : ℝ), prices.length < w →
      isInputError (handle_technical_indicators (.bollinger w ns) prices)) ∧
    (∀ sw lw : ℕ, prices.length < lw →
      isInputError (handle_technical_indicators (.cross sw lw) prices)) ∧
    (prices ≠ [] → ∀ f sl sg : ℕ,
      ∃ v, handle_technical_indicators (.macd f sl sg) prices = .ok v) := by
  refine ⟨?_, ?_, ?_, ?_, ?_, ?_⟩
  · intro w hw
    simp only [handle_technical_indicators]
    by_cases hp : prices = []
    · rw [if_pos hp]; exact ⟨_, rfl⟩
    · rw [if_neg hp]
      by_cases hw0 : w ≤ 0
      · rw [if_pos hw0]; exact ⟨_, rfl⟩
      · rw [if_neg hw0, if_pos hw]; exact ⟨_, rfl⟩
  · intro w hw
    simp only [handle_technical_indicators]
    by_cases hp : prices = []
    · rw [if_pos hp]; exact ⟨_, rfl⟩
    · rw [if_neg hp]
      by_cases hw0 : w ≤ 0
      · rw [if_pos hw0]; exact ⟨_, rfl⟩
      · rw [if_neg hw0, if_pos hw]; exact ⟨_, rfl⟩
  · intro w hw
    simp only [handle_technical_indicators]
    by_cases hp : prices = []
    · rw [if_pos hp]; exact ⟨_, rfl⟩
    · rw [if_neg hp]
      by_cases hw0 : w ≤ 0
      · rw [if_pos hw0]; exact ⟨_, rfl⟩
      · rw [if_neg hw0, if_pos hw]; exact ⟨_, rfl⟩
  · intro w ns hw
    simp only [handle_technical_indicators]
    by_cases hp : prices = []
    · rw [if_pos hp]; exact ⟨_, rfl⟩
    · rw [if_neg hp]
      by_cases hw0 : w ≤ 0
      · rw [if_pos hw0]; exact ⟨_, rfl⟩
      · rw [if_neg hw0, if_pos hw]; exact ⟨_, rfl⟩
  · intro sw lw hw
    simp only [handle_technical_indicators]
    by_cases hp : prices = []
    · rw [if_pos hp]; exact ⟨_, rfl⟩
    · rw [if_neg hp, if_pos hw]; exact ⟨_, rfl⟩
  · intro hp f sl sg
    simp only [handle_technical_indicators]
    rw [if_neg hp]
    exact ⟨_, rfl⟩

/-- Witness for C8: a 20-period SMA on three prices is rejected. -/
theorem c8_insufficient_data_witness :
    isInputError (handle_technical_indicators (.sma 20) [100, 101, 102]) :=
  (c8_insufficient_data [100, 101, 102]).1 20 (by decide)

/-! Machinery for the American-versus-European comparison (claim C3). -/

/-- One continuation step shrinks a layer by one node. -/
theorem contStep_length (disc p : ℝ) (v : List ℝ) :
    (contStep disc p v).length = v.length - 1 := by
  rw [contStep, List.length_zipWith, List.length_tail]
  omega

/-- A tree layer `j` has `j + 1` nodes. -/
theorem layerPrices_length (S u d : ℝ) (j : ℕ) :
    (layerPrices S u d j).length = j + 1 := by
  simp [layerPrices]

/-- The value vector at layer `N - k` has `N + 1 - k` nodes. -/
theorem valsFrom_length (cx : TreeCtx) (N : ℕ) :
    ∀ k, k ≤ N → (valsFrom cx N k).length = N + 1 - k := by
  intro k
  induction k with
  | zero => intro _; simp [valsFrom, layerPrices]
  | succ m ih =>
    intro hm
    have hlen := ih (Nat.le_of_succ_le hm)
    show (backstep cx (N - (m + 1)) (valsFrom cx N m)).length = N + 1 - (m + 1)
    unfold backstep
    cases hst : cx.st with
    | european =>
      rw [contStep_length, hlen]
      omega
    | american =>
      rw [List.length_zipWith, contStep_length, hlen, List.length_map,
        layerPrices_length]
      omega

/-- Pointwise `≤` between lists is transitive. -/
theorem forall₂_le_trans : ∀ {a b c : List ℝ}, List.Forall₂ (· ≤ ·) a b →
    List.Forall₂ (· ≤ ·) b c → List.Forall₂ (· ≤ ·) a c := by
  intro a b c h1
  induction h1 generalizing c with
  | nil => intro h2; cases h2; exact List.Forall₂.nil
  | cons hab _ ih =>
    intro h2
    cases h2 with
    | cons hbc h2' => exact List.Forall₂.cons (le_trans hab hbc) (ih h2')

/-- Taking an elementwise maximum never decreases a list (equal lengths). -/
theorem forall₂_le_zipWith_max : ∀ (a b : List ℝ), a.length = b.length →
    List.Forall₂ (· ≤ ·) a (List.zipWith max a b)
  | [], [], _ => List.Forall₂.nil
  | [], _ :: _, h => by simp at h
  | _ :: _, [], h => by simp at h
  | x :: xs, y :: ys, h =>
      List.Forall₂.cons (le_max_left x y)
        (forall₂_le_zipWith_max xs ys (by simpa using h))

/-- An elementwise maximum with a pointwise smaller list is the identity. -/
theorem zipWith_max_eq_left : ∀ {a b : List ℝ}, List.Forall₂ (· ≤ ·) b a →
    List.zipWith max a b = a := by
  intro a b h
  induction h with
  | nil => rfl
  | cons hxy _ ih =>
    rw [List.zipWith_cons_cons, max_eq_left hxy, ih]

/-- Pointwise `≤` transfers to the (defaulted) heads of nonempty lists. -/
theorem forall₂_headD {a b : List ℝ} (h : List.Forall₂ (· ≤ ·) a b)
    (ha : a ≠ []) : a.headD 0 ≤ b.headD 0 := by
  cases h with
  | nil => exact absurd rfl ha
  | cons hxy _ => simpa using hxy

/-- The continuation step is monotone in the layer values whenever the
discounted pseudo-probabilities `disc * p` and `disc * (1 - p)` are both
nonnegative. -/
theorem contStep_mono (disc p : ℝ) (hd : 0 ≤ disc) (hp0 : 0 ≤ p) (hp1 : p ≤ 1)
    {v w : List ℝ} (h : List.Forall₂ (· ≤ ·) v w) :
    List.Forall₂ (· ≤ ·) (contStep disc p v) (contStep disc p w) := by
  rw [List.forall₂_iff_get] at h ⊢
  obtain ⟨hlen, hget⟩ := h
  have hlv : (contStep disc p v).length = v.length - 1 := contStep_length disc p v
  have hlw : (contStep disc p w).length = w.length - 1 := contStep_length disc p w
  refine ⟨by rw [hlv, hlw, hlen], ?_⟩
  intro i h₁ h₂
  rw [hlv] at h₁
  rw [hlw] at h₂
  have hiv : i < v.length := by omega
  have hiv1 : i + 1 < v.length := by omega
  have hiw : i < w.length := by omega
  have hiw1 : i + 1 < w.length := by omega
  have hg0 : v[i] ≤ w[i] := by
    have := hget i hiv hiw
    simpa [List.get_eq_getElem] using this
  have hg1 : v[i + 1] ≤ w[i + 1] := by
    have := hget (i + 1) hiv1 hiw1
    simpa [List.get_eq_getElem] using this
  have hit : i < v.tail.length := by rw [List.length_tail]; omega
  have hit' : i < w.tail.length := by rw [List.length_tail]; omega
  simp only [List.get_eq_getElem, contStep, List.getElem_zipWith, List.getElem_tail]
  have hdp : 0 ≤ disc * p := mul_nonneg hd hp0
  have hdq : 0 ≤ disc * (1 - p) := mul_nonneg hd (by linarith)
  nlinarith [mul_le_mul_of_nonneg_left hg0 hdp, mul_le_mul_of_nonneg_left hg1 hdq]

/-- Layerwise comparison: with the discounted pseudo-probabilities
nonnegative (`0 ≤ p ≤ 1`), every American backward-induction layer dominates
the European one pointwise. -/
theorem amer_ge_euro_layers (Stree Kv rv uv dv pv discv dtv : ℝ)
    (vd : List Dividend) (ot : OptType) (N : ℕ)
    (hd : 0 ≤ discv) (hp0 : 0 ≤ pv) (hp1 : pv ≤ 1) :
    ∀ k, k ≤ N →
      List.Forall₂ (· ≤ ·)
        (valsFrom ⟨Stree, Kv, rv, uv, dv, pv, discv, dtv, vd, ot, .european⟩ N k)
        (valsFrom ⟨Stree, Kv, rv, uv, dv, pv, discv, dtv, vd, ot, .american⟩ N k) := by
  intro k
  induction k with
  | zero =>
    intro _
    show List.Forall₂ (· ≤ ·)
      ((layerPrices Stree uv dv N).map (fun sv => payoff ot Kv sv))
      ((layerPrices Stree uv dv N).map (fun sv => payoff ot Kv sv))
    exact List.forall₂_same.mpr (fun x _ => le_refl x)
  | succ m ih =>
    intro hm
    have hmN := Nat.le_of_succ_le hm
    have ihm := ih hmN
    have heuro : valsFrom ⟨Stree, Kv, rv, uv, dv, pv, discv, dtv, vd, ot, .european⟩
        N (m + 1) =
        contStep discv pv
          (valsFrom ⟨Stree, Kv, rv, uv, dv, pv, discv, dtv, vd, ot, .european⟩ N m) :=
      rfl
    have hamer : valsFrom ⟨Stree, Kv, rv, uv, dv, pv, discv, dtv, vd, ot, .american⟩
        N (m + 1) =
        List.zipWith max
          (contStep discv pv
            (valsFrom ⟨Stree, Kv, rv, uv, dv, pv, discv, dtv, vd, ot, .american⟩ N m))
          ((layerPrices Stree uv dv (N - (m + 1))).map
            (fun sv => payoff ot Kv
              (sv + pvRemainingOf rv vd ((N - (m + 1) : ℕ) * dtv)))) :=
      rfl
    rw [heuro, hamer]
    have hlenE := valsFrom_length
      ⟨Stree, Kv, rv, uv, dv, pv, discv, dtv, vd, ot, .european⟩ N m hmN
    have hlenA := valsFrom_length
      ⟨Stree, Kv, rv, uv, dv, pv, discv, dtv, vd, ot, .american⟩ N m hmN
    have hstep1 := contStep_mono discv pv hd hp0 hp1 ihm
    have hstep2 : List.Forall₂ (· ≤ ·)
        (contStep discv pv
          (valsFrom ⟨Stree, Kv, rv, uv, dv, pv, discv, dtv, vd, ot, .american⟩ N m))
        (List.zipWith max
          (contStep discv pv
            (valsFrom ⟨Stree, Kv, rv, uv, dv, pv, discv, dtv, vd, ot, .american⟩ N m))
          ((layerPrices Stree uv dv (N - (m + 1))).map
            (fun sv => payoff ot Kv
              (sv + pvRemainingOf rv vd ((N - (m + 1) : ℕ) * dtv))))) := by
      apply forall₂_le_zipWith_max
      rw [contStep_length, hlenA, List.length_map, layerPrices_length]
      omega
    exact forall₂_le_trans hstep1 hstep2

/-- Dominance invariant for a European call without discrete dividends: under
the risk-neutral identity `disc * (p * u + (1 - p) * d) = 1`, a discount
factor at most one, and `0 ≤ p ≤ 1`, every European layer dominates its own
intrinsic payoff pointwise (so early exercise never helps). -/
theorem euro_call_dominates (Stree Kv rv uv dv pv discv dtv : ℝ) (N : ℕ)
    (hd0 : 0 ≤ discv) (hp0 : 0 ≤ pv) (hp1 : pv ≤ 1) (hK : 0 ≤ Kv)
    (hdisc1 : discv ≤ 1)
    (hmart : discv * (pv * uv + (1 - pv) * dv) = 1) :
    ∀ k, k ≤ N →
      List.Forall₂ (· ≤ ·)
        ((layerPrices Stree uv dv (N - k)).map (fun sv => payoff .call Kv sv))
        (valsFrom ⟨Stree, Kv, rv, uv, dv, pv, discv, dtv, [], .call, .european⟩
          N k) := by
  intro k
  induction k with
  | zero =>
    intro _
    show List.Forall₂ (· ≤ ·)
      ((layerPrices Stree uv dv (N - 0)).map (fun sv => payoff .call Kv sv))
      ((layerPrices Stree uv dv N).map (fun sv => payoff .call Kv sv))
    rw [Nat.sub_zero]
    exact List.forall₂_same.mpr (fun x _ => le_refl x)
  | succ m ih =>
    intro hm
    have hmN := Nat.le_of_succ_le hm
    have ihm := ih hmN
    have heuro : valsFrom
        ⟨Stree, Kv, rv, uv, dv, pv, discv, dtv, [], .call, .european⟩ N (m + 1) =
        contStep discv pv
          (valsFrom ⟨Stree, Kv, rv, uv, dv, pv, discv, dtv, [], .call, .european⟩
            N m) := rfl
    rw [heuro]
    rw [List.forall₂_iff_get] at ihm ⊢
    obtain ⟨ihlen, ihget⟩ := ihm
    have hlenV := valsFrom_length
      ⟨Stree, Kv, rv, uv, dv, pv, discv, dtv, [], .call, .european⟩ N m hmN
    refine ⟨?_, ?_⟩
    · rw [List.length_map, layerPrices_length, contStep_length, hlenV]
      omega
    · intro i h₁ h₂
      rw [List.length_map, layerPrices_length] at h₁
      rw [contStep_length, hlenV] at h₂
      have hij : i ≤ N - (m + 1) := by omega
      have hi0 : i < (valsFrom
          ⟨Stree, Kv, rv, uv, dv, pv, discv, dtv, [], .call, .european⟩ N m).length := by
        rw [hlenV]; omega
      have hi1 : i + 1 < (valsFrom
          ⟨Stree, Kv, rv, uv, dv, pv, discv, dtv, [], .call, .european⟩ N m).length := by
        rw [hlenV]; omega
      have hmi0 : i < ((layerPrices Stree uv dv (N - m)).map
          (fun sv => payoff .call Kv sv)).length := by
        rw [List.length_map, layerPrices_length]; omega
      have hmi1 : i + 1 < ((layerPrices Stree uv dv (N - m)).map
          (fun sv => payoff .call Kv sv)).length := by
        rw [List.length_map, layerPrices_length]; omega
      have hVi := ihget i hmi0 hi0
      have hVi1 := ihget (i + 1) hmi1 hi1
      simp only [List.get_eq_getElem, List.getElem_map, layerPrices,
        List.getElem_range] at hVi hVi1 ⊢
      simp only [contStep, List.getElem_zipWith, List.getElem_tail]
      -- abbreviate the layer node price
      have hA1 : Stree * uv ^ (N - m - i) * dv ^ i =
          Stree * uv ^ (N - (m + 1) - i) * dv ^ i * uv := by
        rw [show N - m - i = (N - (m + 1) - i) + 1 by omega, pow_succ]
        ring
      have hA2 : Stree * uv ^ (N - m - (i + 1)) * dv ^ (i + 1) =
          Stree * uv ^ (N - (m + 1) - i) * dv ^ i * dv := by
        rw [show N - m - (i + 1) = N - (m + 1) - i by omega, pow_succ]
        ring
      rw [hA1] at hVi
      rw [hA2] at hVi1
      simp only [payoff] at hVi hVi1 ⊢
      have hVia : Stree * uv ^ (N - (m + 1) - i) * dv ^ i * uv - Kv ≤
          (valsFrom ⟨Stree, Kv, rv, uv, dv, pv, discv, dtv, [], .call, .european⟩
            N m)[i] :=
        le_trans (le_max_right _ _) hVi
      have hVi0 : (0 : ℝ) ≤
          (valsFrom ⟨Stree, Kv, rv, uv, dv, pv, discv, dtv, [], .call, .european⟩
            N m)[i] :=
        le_trans (le_max_left _ _) hVi
      have hV1a : Stree * uv ^ (N - (m + 1) - i) * dv ^ i * dv - Kv ≤
          (valsFrom ⟨Stree, Kv, rv, uv, dv, pv, discv, dtv, [], .call, .european⟩
            N m)[i + 1] :=
        le_trans (le_max_right _ _) hVi1
      have hV10 : (0 : ℝ) ≤
          (valsFrom ⟨Stree, Kv, rv, uv, dv, pv, discv, dtv, [], .call, .european⟩
            N m)[i + 1] :=
        le_trans (le_max_left _ _) hVi1
      apply max_le
      · have hq : (0 : ℝ) ≤ 1 - pv := by linarith
        have := add_nonneg (mul_nonneg hp0 hVi0) (mul_nonneg hq hV10)
        exact mul_nonneg hd0 this
      · have h1 := mul_le_mul_of_nonneg_left hVia (mul_nonneg hd0 hp0)
        have h2 := mul_le_mul_of_nonneg_left hV1a
          (mul_nonneg hd0 (by linarith : (0 : ℝ) ≤ 1 - pv))
        have hkey : Stree * uv ^ (N - (m + 1) - i) * dv ^ i *
            (discv * (pv * uv + (1 - pv) * dv)) =
            Stree * uv ^ (N - (m + 1) - i) * dv ^ i := by
          rw [hmart]; ring
        have hKd : discv * Kv ≤ Kv := mul_le_of_le_one_left hK hdisc1
        nlinarith [h1, h2, hkey, hKd]

/-- Without discrete dividends, zero continuous yield and the dominance
hypotheses, every American layer of a call equals the European one: the
elementwise maximum with the intrinsic payoff never binds. -/
theorem amer_eq_euro_call (Stree Kv rv uv dv pv discv dtv : ℝ) (N : ℕ)
    (hd0 : 0 ≤ discv) (hp0 : 0 ≤ pv) (hp1 : pv ≤ 1) (hK : 0 ≤ Kv)
    (hdisc1 : discv ≤ 1)
    (hmart : discv * (pv * uv + (1 - pv) * dv) = 1) :
    ∀ k, k ≤ N →
      valsFrom ⟨Stree, Kv, rv, uv, dv, pv, discv, dtv, [], .call, .american⟩ N k =
        valsFrom ⟨Stree, Kv, rv, uv, dv, pv, discv, dtv, [], .call, .european⟩
          N k := by
  intro k
  induction k with
  | zero => intro _; rfl
  | succ m ih =>
    intro hm
    have hmN := Nat.le_of_succ_le hm
    have hamer : valsFrom
        ⟨Stree, Kv, rv, uv, dv, pv, discv, dtv, [], .call, .american⟩ N (m + 1) =
        List.zipWith max
          (contStep discv pv
            (valsFrom ⟨Stree, Kv, rv, uv, dv, pv, discv, dtv, [], .call, .american⟩
              N m))
          ((layerPrices Stree uv dv (N - (m + 1))).map
            (fun sv => payoff .call Kv
              (sv + pvRemainingOf rv [] ((N - (m + 1) : ℕ) * dtv)))) := rfl
    have heuro : valsFrom
        ⟨Stree, Kv, rv, uv, dv, pv, discv, dtv, [], .call, .european⟩ N (m + 1) =
        contStep discv pv
          (valsFrom ⟨Stree, Kv, rv, uv, dv, pv, discv, dtv, [], .call, .european⟩
            N m) := rfl
    rw [hamer, heuro, ih hmN]
    have hintr : (layerPrices Stree uv dv (N - (m + 1))).map
        (fun sv => payoff .call Kv
          (sv + pvRemainingOf rv [] ((N - (m + 1) : ℕ) * dtv))) =
        (layerPrices Stree uv dv (N - (m + 1))).map
          (fun sv => payoff .call Kv sv) := by
      apply List.map_congr_left
      intro sv _
      have hz : pvRemainingOf rv [] ((N - (m + 1) : ℕ) * dtv) = 0 := rfl
      rw [hz, add_zero]
    rw [hintr]
    apply zipWith_max_eq_left
    have hdom := euro_call_dominates Stree Kv rv uv dv pv discv dtv N
      hd0 hp0 hp1 hK hdisc1 hmart (m + 1) hm
    exact hdom

/-- Equation lemma: in the success case the returned price is the root of the
backward induction. -/
theorem calc_binom_price_eq (S K T r q : ℝ) (divs : List Dividend) (sigma : ℝ)
    (ot : OptType) (st : ExStyle) (N : ℕ) (hT : ¬ T ≤ 0)
    (hS : ¬ S - pvDivsOf r T divs ≤ 0) :
    ∃ rest : ℝ × ℝ × ℝ, _calculate_binomial_price S K T r q divs sigma ot st N =
      .ok ((valsFrom (mkTreeCtx S K T r q divs sigma ot st N) N N).headD 0, rest) := by
  unfold _calculate_binomial_price
  rw [if_neg hT]
  have hS' : ¬ (mkTreeCtx S K T r q divs sigma ot st N).S_tree ≤ 0 := hS
  simp only [if_neg hS']
  exact ⟨_, rfl⟩

/-- C3 (amended): whenever the CRR pseudo-probability `p` lies in `[0, 1]`,
the American binomial price is at least the European one for every parameter
set; and for a call with no discrete dividends, zero continuous yield,
nonnegative rate, positive volatility and validated strike/steps, the
American and European prices coincide exactly. -/
theorem c3_amer_ge_euro_amended (S K T r q : ℝ) (divs : List Dividend)
    (sigma : ℝ) (ot : OptType) (N : ℕ)
    (hp0 : 0 ≤ treeP r q sigma T N) (hp1 : treeP r q sigma T N ≤ 1)
    (pe pa : ℝ × ℝ × ℝ × ℝ)
    (he : _calculate_binomial_price S K T r q divs sigma ot .european N = .ok pe)
    (ha : _calculate_binomial_price S K T r q divs sigma ot .american N = .ok pa) :
    pe.1 ≤ pa.1 ∧
    (divs = [] → q = 0 → 0 ≤ r → 0 < sigma → 0 ≤ K → 1 ≤ N → ot = .call →
      pa.1 = pe.1) := by
  by_cases hT : T ≤ 0
  · rw [calc_binom_T_nonpos S K T r q divs sigma ot .european N hT] at he
    rw [calc_binom_T_nonpos S K T r q divs sigma ot .american N hT] at ha
    injection he with he'
    injection ha with ha'
    rw [← he', ← ha']
    exact ⟨le_refl _, fun _ _ _ _ _ _ _ => rfl⟩
  · by_cases hS : S - pvDivsOf r T divs ≤ 0
    · rw [calc_binom_escrow_err S K T r q divs sigma ot .european N hT hS] at he
      exact absurd he (by simp)
    · obtain ⟨restE, hE⟩ :=
        calc_binom_price_eq S K T r q divs sigma ot .european N hT hS
      obtain ⟨restA, hA⟩ :=
        calc_binom_price_eq S K T r q divs sigma ot .american N hT hS
      rw [hE] at he
      rw [hA] at ha
      injection he with he'
      injection ha with ha'
      rw [← he', ← ha']
      have hmkE : mkTreeCtx S K T r q divs sigma ot .european N =
          ⟨S - pvDivsOf r T divs, K, r, treeU sigma T N, treeD sigma T N,
            treeP r q sigma T N, treeDisc r T N, treeDt T N, validDivs T divs,
            ot, .european⟩ := rfl
      have hmkA : mkTreeCtx S K T r q divs sigma ot .american N =
          ⟨S - pvDivsOf r T divs, K, r, treeU sigma T N, treeD sigma T N,
            treeP r q sigma T N, treeDisc r T N, treeDt T N, validDivs T divs,
            ot, .american⟩ := rfl
      have hlenE := valsFrom_length
        (mkTreeCtx S K T r q divs sigma ot .european N) N N (le_refl N)
      have hne : valsFrom (mkTreeCtx S K T r q divs sigma ot .european N) N N ≠ [] := by
        apply List.ne_nil_of_length_pos
        rw [hlenE]
        omega
      constructor
      · -- the American price dominates
        apply forall₂_headD ?_ hne
        rw [hmkE, hmkA]
        exact amer_ge_euro_layers (S - pvDivsOf r T divs) K r (treeU sigma T N)
          (treeD sigma T N) (treeP r q sigma T N) (treeDisc r T N) (treeDt T N)
          (validDivs T divs) ot N (Real.exp_pos _).le hp0 hp1 N (le_refl N)
      · -- equality for the dividend-free call with q = 0, r ≥ 0, σ > 0
        intro hdiv hq hr hsig hK hN hot
        subst hdiv hq hot
        have hTpos : 0 < T := not_le.mp hT
        have hNpos : (0 : ℝ) < (N : ℝ) := by
          have : (1 : ℝ) ≤ (N : ℝ) := by exact_mod_cast hN
          linarith
        have hdt : 0 < treeDt T N := div_pos hTpos hNpos
        have hu0 : 0 < treeU sigma T N := Real.exp_pos _
        have hu1 : 1 < treeU sigma T N := by
          rw [treeU, Real.one_lt_exp_iff]
          exact mul_pos hsig (Real.sqrt_pos.mpr hdt)
        have hd1 : treeD sigma T N < 1 := by
          rw [treeD]
          rw [div_lt_one hu0]
          exact hu1
        have hdlt : treeD sigma T N < treeU sigma T N := lt_trans hd1 hu1
        have hsub : treeU sigma T N - treeD sigma T N ≠ 0 := by
          apply ne_of_gt
          linarith
        have hformula : treeP r 0 sigma T N * (treeU sigma T N - treeD sigma T N) =
            Real.exp ((r - 0) * treeDt T N) - treeD sigma T N := by
          rw [treeP]
          exact div_mul_cancel₀ _ hsub
        have hE2 : treeP r 0 sigma T N * treeU sigma T N +
            (1 - treeP r 0 sigma T N) * treeD sigma T N =
            Real.exp ((r - 0) * treeDt T N) := by
          linear_combination hformula
        have hmart : treeDisc r T N *
            (treeP r 0 sigma T N * treeU sigma T N +
              (1 - treeP r 0 sigma T N) * treeD sigma T N) = 1 := by
          rw [hE2, treeDisc, ← Real.exp_add]
          have hz : -r * treeDt T N + (r - 0) * treeDt T N = 0 := by ring
          rw [hz, Real.exp_zero]
        have hdisc1 : treeDisc r T N ≤ 1 := by
          rw [treeDisc, Real.exp_le_one_iff]
          have := mul_nonneg hr hdt.le
          linarith
        have heq := amer_eq_euro_call (S - pvDivsOf r T []) K r (treeU sigma T N)
          (treeD sigma T N) (treeP r 0 sigma T N) (treeDisc r T N) (treeDt T N) N
          (Real.exp_pos _).le hp0 hp1 hK hdisc1 hmart N (le_refl N)
        rw [hmkE, hmkA]
        have hvd : validDivs T ([] : List Dividend) = [] := rfl
        rw [hvd, heq]

/-! Concrete refutation instance for the unrestricted claim C3: an
at-the-money two-step put with tiny volatility and a large rate, so that the
CRR pseudo-probability exceeds one. -/

/-- Up factor of the refutation instance. -/
noncomputable def c3u : ℝ := treeU (1 / 100) 1 2

/-- Down factor of the refutation instance. -/
noncomputable def c3d : ℝ := treeD (1 / 100) 1 2

/-- Pseudo-probability of the refutation instance (greater than one). -/
noncomputable def c3p : ℝ := treeP 1 0 (1 / 100) 1 2

/-- Per-step discount of the refutation instance. -/
noncomputable def c3disc : ℝ := treeDisc 1 1 2

/-- Tree context of the refutation instance. -/
noncomputable def c3ctx (st : ExStyle) : TreeCtx :=
  ⟨100, 100, 1, c3u, c3d, c3p, c3disc, treeDt 1 2, [], .put, st⟩

/-- The refutation instance's time step is one half. -/
theorem c3dt_val : treeDt 1 2 = 1 / 2 := by
  rw [treeDt]
  norm_num

/-- The up factor exceeds one. -/
theorem c3u_gt_one : 1 < c3u := by
  rw [c3u, treeU, Real.one_lt_exp_iff]
  apply mul_pos
  · norm_num
  · rw [Real.sqrt_pos, c3dt_val]
    norm_num

/-- The up factor is positive. -/
theorem c3u_pos : 0 < c3u := lt_trans one_pos c3u_gt_one

/-- The down factor is positive. -/
theorem c3d_pos : 0 < c3d := by
  rw [c3d, treeD]
  exact div_pos one_pos (by rw [← c3u]; exact c3u_pos)

/-- The down factor is below one. -/
theorem c3d_lt_one : c3d < 1 := by
  rw [c3d, treeD, div_lt_one (by rw [← c3u]; exact c3u_pos)]
  rw [← c3u]
  exact c3u_gt_one

/-- Up and down factors are reciprocal. -/
theorem c3ud : c3u * c3d = 1 := by
  rw [c3d, treeD, ← c3u]
  field_simp
  exact div_self (ne_of_gt c3u_pos)

/-- The pseudo-probability of the refutation instance exceeds one. -/
theorem c3p_gt_one : 1 < c3p := by
  have hEu : c3u < Real.exp ((1 - 0) * treeDt 1 2) := by
    rw [c3u, treeU, Real.exp_lt_exp, c3dt_val]
    have hsq : Real.sqrt (1 / 2) < 1 := by
      have h1 : Real.sqrt (1 / 2) < Real.sqrt 1 := by
        apply Real.sqrt_lt_sqrt <;> norm_num
      simpa using h1
    nlinarith [Real.sqrt_nonneg (1 / 2 : ℝ)]
  have hden : 0 < c3u - c3d := by
    have := c3d_lt_one
    have := c3u_gt_one
    linarith
  rw [c3p, treeP, ← c3u, ← c3d]
  rw [one_lt_div hden]
  linarith

/-- The per-step discount is positive. -/
theorem c3disc_pos : 0 < c3disc := by
  rw [c3disc, treeDisc]
  exact Real.exp_pos _

/-- Terminal layer of the refutation tree: only the double-down node pays. -/
theorem c3_terminal (st : ExStyle) :
    valsFrom (c3ctx st) 2 0 = [0, 0, 100 - 100 * c3d ^ 2] := by
  have h0 : valsFrom (c3ctx st) 2 0 =
      [max 0 (100 - 100 * c3u ^ 2 * c3d ^ 0),
        max 0 (100 - 100 * c3u ^ 1 * c3d ^ 1),
        max 0 (100 - 100 * c3u ^ 0 * c3d ^ 2)] := rfl
  rw [h0]
  have e1 : max 0 (100 - 100 * c3u ^ 2 * c3d ^ 0) = 0 := by
    apply max_eq_left
    rw [pow_zero, mul_one]
    nlinarith [c3u_gt_one]
  have e2 : max 0 (100 - 100 * c3u ^ 1 * c3d ^ 1) = 0 := by
    rw [pow_one, pow_one, mul_assoc, c3ud, mul_one]
    simp
  have e3 : max 0 (100 - 100 * c3u ^ 0 * c3d ^ 2) = 100 - 100 * c3d ^ 2 := by
    rw [pow_zero, mul_one]
    apply max_eq_right
    nlinarith [c3d_pos, c3d_lt_one]
  rw [e1, e2, e3]

/-- European layer 1 of the refutation tree. -/
theorem c3_euro_layer1 : valsFrom (c3ctx .european) 2 1 =
    [0, c3disc * ((1 - c3p) * (100 - 100 * c3d ^ 2))] := by
  have h0 : valsFrom (c3ctx .european) 2 1 =
      contStep c3disc c3p (valsFrom (c3ctx .european) 2 0) := rfl
  rw [h0, c3_terminal]
  have h1 : contStep c3disc c3p [0, 0, 100 - 100 * c3d ^ 2] =
      [c3disc * (c3p * 0 + (1 - c3p) * 0),
        c3disc * (c3p * 0 + (1 - c3p) * (100 - 100 * c3d ^ 2))] := rfl
  rw [h1]
  simp

/-- European root value of the refutation tree: strictly positive because the
negative weight `1 - p` appears squared. -/
theorem c3_euro_root : valsFrom (c3ctx .european) 2 2 =
    [c3disc * ((1 - c3p) * (c3disc * ((1 - c3p) * (100 - 100 * c3d ^ 2))))] := by
  have h0 : valsFrom (c3ctx .european) 2 2 =
      contStep c3disc c3p (valsFrom (c3ctx .european) 2 1) := rfl
  rw [h0, c3_euro_layer1]
  have h1 : contStep c3disc c3p
      [0, c3disc * ((1 - c3p) * (100 - 100 * c3d ^ 2))] =
      [c3disc * (c3p * 0 +
        (1 - c3p) * (c3disc * ((1 - c3p) * (100 - 100 * c3d ^ 2))))] := rfl
  rw [h1]
  simp

/-- American layer 1 of the refutation tree: early exercise floors the down
node at its intrinsic value. -/
theorem c3_amer_layer1 : valsFrom (c3ctx .american) 2 1 =
    [0, 100 - 100 * c3d] := by
  have h0 : valsFrom (c3ctx .american) 2 1 =
      List.zipWith max
        (contStep c3disc c3p (valsFrom (c3ctx .american) 2 0))
        ((layerPrices 100 c3u c3d 1).map
          (fun sv => max 0 (100 - (sv + pvRemainingOf 1 [] (((1 : ℕ) : ℝ) * treeDt 1 2))))) :=
    rfl
  rw [h0, c3_terminal]
  have hpv0 : pvRemainingOf 1 ([] : List Dividend) (((1 : ℕ) : ℝ) * treeDt 1 2) = 0 := rfl
  rw [hpv0]
  have hlp : layerPrices 100 c3u c3d 1 = [100 * c3u ^ 1 * c3d ^ 0, 100 * c3u ^ 0 * c3d ^ 1] := rfl
  rw [hlp]
  have hcont : contStep c3disc c3p [0, 0, 100 - 100 * c3d ^ 2] =
      [c3disc * (c3p * 0 + (1 - c3p) * 0),
        c3disc * (c3p * 0 + (1 - c3p) * (100 - 100 * c3d ^ 2))] := rfl
  rw [hcont]
  have hmap : [100 * c3u ^ 1 * c3d ^ 0, 100 * c3u ^ 0 * c3d ^ 1].map
      (fun sv => max 0 (100 - (sv + (0 : ℝ)))) =
      [max 0 (100 - (100 * c3u ^ 1 * c3d ^ 0 + 0)),
        max 0 (100 - (100 * c3u ^ 0 * c3d ^ 1 + 0))] := rfl
  rw [hmap]
  have hz1 : List.zipWith max
      [c3disc * (c3p * 0 + (1 - c3p) * 0),
        c3disc * (c3p * 0 + (1 - c3p) * (100 - 100 * c3d ^ 2))]
      [max 0 (100 - (100 * c3u ^ 1 * c3d ^ 0 + 0)),
        max 0 (100 - (100 * c3u ^ 0 * c3d ^ 1 + 0))] =
      [max (c3disc * (c3p * 0 + (1 - c3p) * 0))
          (max 0 (100 - (100 * c3u ^ 1 * c3d ^ 0 + 0))),
        max (c3disc * (c3p * 0 + (1 - c3p) * (100 - 100 * c3d ^ 2)))
          (max 0 (100 - (100 * c3u ^ 0 * c3d ^ 1 + 0)))] := rfl
  rw [hz1]
  simp only [List.cons.injEq, and_true]
  constructor
  · have ha : c3disc * (c3p * 0 + (1 - c3p) * 0) = 0 := by ring
    have hb : max (0 : ℝ) (100 - (100 * c3u ^ 1 * c3d ^ 0 + 0)) = 0 := by
      apply max_eq_left
      rw [pow_one, pow_zero, mul_one]
      nlinarith [c3u_gt_one]
    rw [ha, hb]
    simp
  · have hintr : max (0 : ℝ) (100 - (100 * c3u ^ 0 * c3d ^ 1 + 0)) = 100 - 100 * c3d := by
      rw [pow_zero, pow_one, mul_one, add_zero]
      apply max_eq_right
      nlinarith [c3d_lt_one]
    rw [hintr]
    apply max_eq_right
    have hcneg : c3disc * (c3p * 0 + (1 - c3p) * (100 - 100 * c3d ^ 2)) < 0 := by
      have hA : 0 < 100 - 100 * c3d ^ 2 := by nlinarith [c3d_pos, c3d_lt_one]
      have h1p : 1 - c3p < 0 := by linarith [c3p_gt_one]
      have := mul_neg_of_neg_of_pos h1p hA
      nlinarith [c3disc_pos]
    nlinarith [c3d_lt_one]

/-- American root value of the refutation tree: the continuation is negative
and the root intrinsic value is zero, so the American price is zero. -/
theorem c3_amer_root : valsFrom (c3ctx .american) 2 2 = [0] := by
  have h0 : valsFrom (c3ctx .american) 2 2 =
      List.zipWith max
        (contStep c3disc c3p (valsFrom (c3ctx .american) 2 1))
        ((layerPrices 100 c3u c3d 0).map
          (fun sv => max 0 (100 - (sv + pvRemainingOf 1 [] (((0 : ℕ) : ℝ) * treeDt 1 2))))) :=
    rfl
  rw [h0, c3_amer_layer1]
  have hpv0 : pvRemainingOf 1 ([] : List Dividend) (((0 : ℕ) : ℝ) * treeDt 1 2) = 0 := rfl
  rw [hpv0]
  have hlp : layerPrices 100 c3u c3d 0 = [100 * c3u ^ 0 * c3d ^ 0] := rfl
  rw [hlp]
  have hcont : contStep c3disc c3p [0, 100 - 100 * c3d] =
      [c3disc * (c3p * 0 + (1 - c3p) * (100 - 100 * c3d))] := rfl
  rw [hcont]
  have hmap : [100 * c3u ^ 0 * c3d ^ 0].map (fun sv => max 0 (100 - (sv + (0 : ℝ)))) =
      [max 0 (100 - (100 * c3u ^ 0 * c3d ^ 0 + 0))] := rfl
  rw [hmap]
  have hz : List.zipWith max
      [c3disc * (c3p * 0 + (1 - c3p) * (100 - 100 * c3d))]
      [max 0 (100 - (100 * c3u ^ 0 * c3d ^ 0 + 0))] =
      [max (c3disc * (c3p * 0 + (1 - c3p) * (100 - 100 * c3d)))
        (max 0 (100 - (100 * c3u ^ 0 * c3d ^ 0 + 0)))] := rfl
  rw [hz]
  simp only [List.cons.injEq, and_true]
  have hintr : max (0 : ℝ) (100 - (100 * c3u ^ 0 * c3d ^ 0 + 0)) = 0 := by
    apply max_eq_left
    rw [pow_zero, pow_zero, mul_one, mul_one, add_zero]
    norm_num
  rw [hintr]
  apply max_eq_right
  have hB : 0 < 100 - 100 * c3d := by nlinarith [c3d_lt_one]
  have h1p : 1 - c3p < 0 := by linarith [c3p_gt_one]
  nlinarith [c3disc_pos, mul_neg_of_neg_of_pos h1p hB]

/-- Counterexample for C3 as frozen: at `S = K = 100`, `T = 1`, `r = 1`,
`q = 0`, no dividends, `σ = 0.01`, two steps, the American put prices
strictly below the European put (the pseudo-probability exceeds one, the
European backward induction amplifies a negative weight twice, and the
American floor at intrinsic value cuts it off). -/
theorem c3_counterexample :
    ∃ va ve : ℝ × ℝ × ℝ × ℝ,
      _calculate_binomial_price 100 100 1 1 0 [] (1 / 100) .put .american 2 = .ok va ∧
      _calculate_binomial_price 100 100 1 1 0 [] (1 / 100) .put .european 2 = .ok ve ∧
      va.1 < ve.1 := by
  have hpv : pvDivsOf 1 1 ([] : List Dividend) = 0 := rfl
  have hT : ¬ (1 : ℝ) ≤ 0 := by norm_num
  have hS : ¬ (100 : ℝ) - pvDivsOf 1 1 [] ≤ 0 := by rw [hpv]; norm_num
  obtain ⟨restA, hA⟩ :=
    calc_binom_price_eq 100 100 1 1 0 [] (1 / 100) .put .american 2 hT hS
  obtain ⟨restE, hE⟩ :=
    calc_binom_price_eq 100 100 1 1 0 [] (1 / 100) .put .european 2 hT hS
  refine ⟨_, _, hA, hE, ?_⟩
  have hmkA : mkTreeCtx 100 100 1 1 0 [] (1 / 100) .put .american 2 =
      c3ctx .american := by
    rw [mkTreeCtx, c3ctx, c3u, c3d, c3p, c3disc]
    rw [hpv]
    norm_num
    rfl
  have hmkE : mkTreeCtx 100 100 1 1 0 [] (1 / 100) .put .european 2 =
      c3ctx .european := by
    rw [mkTreeCtx, c3ctx, c3u, c3d, c3p, c3disc]
    rw [hpv]
    norm_num
    rfl
  show (valsFrom (mkTreeCtx 100 100 1 1 0 [] (1 / 100) .put .american 2) 2 2).headD 0 <
    (valsFrom (mkTreeCtx 100 100 1 1 0 [] (1 / 100) .put .european 2) 2 2).headD 0
  rw [hmkA, hmkE, c3_amer_root, c3_euro_root]
  show (0 : ℝ) <
    c3disc * ((1 - c3p) * (c3disc * ((1 - c3p) * (100 - 100 * c3d ^ 2))))
  have hA2 : 0 < 100 - 100 * c3d ^ 2 := by nlinarith [c3d_pos, c3d_lt_one]
  have h1p : 1 - c3p < 0 := by linarith [c3p_gt_one]
  have hinner : (1 - c3p) * (100 - 100 * c3d ^ 2) < 0 :=
    mul_neg_of_neg_of_pos h1p hA2
  have hmid : c3disc * ((1 - c3p) * (100 - 100 * c3d ^ 2)) < 0 :=
    mul_neg_of_pos_of_neg c3disc_pos hinner
  have houter : 0 < (1 - c3p) * (c3disc * ((1 - c3p) * (100 - 100 * c3d ^ 2))) :=
    mul_pos_of_neg_of_neg h1p hmid
  exact mul_pos c3disc_pos houter

/-- Witness for the amended C3: at `S = 2`, `K = 1`, `T = 1`, `r = q = 1`,
`σ = 0`, one step, the pseudo-probability evaluates to zero, the hypotheses
hold, and the American price dominates the European one. -/
theorem c3_amer_ge_euro_amended_witness :
    ∃ pe pa : ℝ × ℝ × ℝ × ℝ,
      _calculate_binomial_price 2 1 1 1 1 [] 0 .call .european 1 = .ok pe ∧
      _calculate_binomial_price 2 1 1 1 1 [] 0 .call .american 1 = .ok pa ∧
      pe.1 ≤ pa.1 := by
  have hp : treeP 1 1 0 1 1 = 0 := by
    rw [treeP, treeD, treeU, treeDt]
    norm_num
  have hT : ¬ (1 : ℝ) ≤ 0 := by norm_num
  have hpv : pvDivsOf 1 1 ([] : List Dividend) = 0 := rfl
  have hS : 0 < (2 : ℝ) - pvDivsOf 1 1 [] := by rw [hpv]; norm_num
  obtain ⟨pe, hpe⟩ := calc_binom_ok 2 1 1 1 1 [] 0 .call .european 1 hT hS
  obtain ⟨pa, hpa⟩ := calc_binom_ok 2 1 1 1 1 [] 0 .call .american 1 hT hS
  refine ⟨pe, pa, hpe, hpa, ?_⟩
  exact (c3_amer_ge_euro_amended 2 1 1 1 1 [] 0 .call 1
    (by rw [hp]) (by rw [hp]; norm_num) pe pa hpe hpa).1

end GofrNp
